import Mathlib

/-!
Verification development for the sql-query-anonymizer core
(`src/sql_query_anonymizer/utils.py`): a shallow embedding of the
normalizer, the tokenizer, the contextual disambiguation passes and the
anonymization mapping engine, together with proofs about them.

Strings are handled as `List Char` in the core definitions and wrapped
into `String` at the API boundary.  The regex character classes `\w` and
`\s` are read at their ASCII meaning.
-/

namespace SqlAnon

/-! ## Character classes -/

/-- ASCII reading of the regex class `\w` (letters, digits, underscore). -/
def isWordChar (c : Char) : Bool := c.isAlpha || c.isDigit || c = '_'

/-- ASCII reading of the regex class `\s` (the six whitespace characters). -/
def isSpaceChar (c : Char) : Bool :=
  c = ' ' || c = '\t' || c = '\n' || c = '\r' || c = '\x0b' || c = '\x0c'

/-- ASCII lower-casing of one character, as Python `str.lower` acts on ASCII. -/
def lowerChar (c : Char) : Char := c.toLower

/-- ASCII upper-casing of one character, as Python `str.upper` acts on ASCII. -/
def upperChar (c : Char) : Char := c.toUpper

def lowerStr (s : List Char) : List Char := s.map lowerChar

def upperStr (s : List Char) : List Char := s.map upperChar

/-! ## The lexical grammar registry

Modelled from the spec: `SQL_KEYWORDS`, `ALL_SQL_FUNCTIONS` and
`OP_PATTERN` live in `constants.py`, which is not among the sources; the
spec describes them as static sets of reserved keywords, built-in
function names, and the operator/punctuation symbols.  The code sorts
the keyword and function names by length, descending, before building
the alternation, so the lists below are written longest-first.  Set
membership tests in the code compare against upper-cased values, so the
entries are stored upper-case.  Two distinct entries of equal length can
never match the same text, so the order among entries of one length is
immaterial. -/

/-- Modelled from the spec: the reserved-keyword vocabulary, including the
multi-word entries the spec calls out, listed longest-first. -/
def SQL_KEYWORDS : List String :=
  ["PRIMARY KEY", "GROUP BY", "ORDER BY", "DISTINCT",
   "BETWEEN", "HAVING", "SELECT", "VALUES", "DELETE", "INSERT", "UPDATE",
   "INNER", "WHERE", "GROUP", "ORDER",
   "FROM", "JOIN", "INTO", "LIKE", "NULL",
   "AND", "SET", "NOT",
   "AS", "BY", "IN", "IS", "ON", "OR"]

/-- Modelled from the spec: the built-in function-name vocabulary, listed
longest-first. -/
def ALL_SQL_FUNCTIONS : List String :=
  ["GETDATE", "COUNT", "LOWER", "UPPER", "YEAR", "AVG", "MAX", "MIN", "SUM"]

/-- Modelled from the spec: the union vocabulary
`SQL_KEYWORDS | ALL_SQL_FUNCTIONS` sorted by length, descending, as
`normalize_keyword_casing` builds it. -/
def keywordFunctionVocab : List String :=
  ["PRIMARY KEY", "GROUP BY", "ORDER BY", "DISTINCT",
   "BETWEEN", "GETDATE", "HAVING", "SELECT", "VALUES", "DELETE", "INSERT",
   "UPDATE", "INNER", "WHERE", "GROUP", "ORDER", "COUNT", "LOWER", "UPPER",
   "FROM", "JOIN", "INTO", "LIKE", "NULL", "YEAR",
   "AND", "SET", "NOT", "AVG", "MAX", "MIN", "SUM",
   "AS", "BY", "IN", "IS", "ON", "OR"]

/-- Modelled from the spec: `OP_PATTERN`, the fixed operator/punctuation
alternation, with the two-character operators first so they win over
their one-character prefixes, consistently with the tests that expect
a single token for a two-character comparison operator. -/
def OP_LIST : List String :=
  ["<=", ">=", "*", ",", "(", ")", "[", "]", ";", "=", "<", ">", "!",
   "%", "+", "-", "/", "^", "&", "|", "~", "."]

/-! ## Token data model, from `utils.py` -/

inductive TokenType where
  | FUNCTION
  | KEYWORD
  | TABLE
  | TABLE_ALIAS
  | IDENTIFIER
  | IDENTIFIER_ALIAS
  | LITERAL
  | SYMBOL
  | WHITESPACE
  | COMMENT
  | UNKNOWN
deriving DecidableEq, Repr

/-- `Token` from `utils.py`; the `space` field is carried along exactly as
in the dataclass (the code always constructs it as `False`). -/
structure Token where
  type : TokenType
  value : String
  space : Bool := false
deriving DecidableEq, Repr

/-! ## The tokenizer scanner

`tokenize_sql` builds one master regex as the ordered alternation
FUNCTION | KEYWORD | TABLE | TABLE_ALIAS | IDENTIFIER | LITERAL |
SYMBOL | WHITESPACE | UNKNOWN (compiled with IGNORECASE) and walks the
input with `finditer`.  The scanner below mirrors that: at each
position it tries the alternatives in that order; the first one that
matches consumes its text.  `prevRev` holds the already-consumed
characters, most recent first, so that the word-boundary assertions and
the look-behind of the TABLE pattern can inspect them. -/

/-- Case-insensitive literal match of `pat` against a prefix of `cs`,
returning the consumed original characters and the rest. -/
def matchCI : List Char → List Char → Option (List Char × List Char)
  | [], cs => some ([], cs)
  | _ :: _, [] => none
  | p :: ps, c :: cs =>
    if lowerChar c = lowerChar p then
      match matchCI ps cs with
      | some (m, r) => some (c :: m, r)
      | none => none
    else none

/-- Exact literal match of `pat` against a prefix of `cs`. -/
def matchExact : List Char → List Char → Option (List Char × List Char)
  | [], cs => some ([], cs)
  | _ :: _, [] => none
  | p :: ps, c :: cs =>
    if c = p then
      match matchExact ps cs with
      | some (m, r) => some (c :: m, r)
      | none => none
    else none

/-- Whether the previously consumed character (head of `prevRev`) is a
word character; the start of input counts as a non-word position. -/
def prevIsWord : List Char → Bool
  | [] => false
  | c :: _ => isWordChar c

/-- The `\b` assertion after a match ending in a word character: the next
character is absent or not a word character. -/
def boundaryAfter : List Char → Bool
  | [] => true
  | c :: _ => !isWordChar c

/-- One vocabulary alternation `\b(?:w1|w2|...)\b`, case-insensitive.
Every vocabulary entry begins and ends with a letter, so the leading
`\b` is exactly `prevIsWord = false` and the trailing `\b` is
`boundaryAfter`.  Entries are tried in list order (the code sorts them
longest-first). -/
def matchAlt (vocab : List String) (cs : List Char) : Option (List Char × List Char) :=
  vocab.findSome? fun w =>
    match matchCI w.data cs with
    | some (m, r) => if boundaryAfter r then some (m, r) else none
    | none => none

def matchVocab (vocab : List String) (prevRev cs : List Char) :
    Option (List Char × List Char) :=
  if prevIsWord prevRev then none else matchAlt vocab cs

/-- The look-behind `(?<=(FROM|JOIN|INTO)\s)` of the TABLE pattern: the
five characters before the current position are one of the three
keywords (case-insensitively, with no word-boundary requirement of its
own) followed by one whitespace character. -/
def tableLookbehind (prevRev : List Char) : Bool :=
  match prevRev with
  | s :: d :: c :: b :: a :: _ =>
    isSpaceChar s &&
      (lowerStr [a, b, c, d] = "from".data ||
       lowerStr [a, b, c, d] = "join".data ||
       lowerStr [a, b, c, d] = "into".data)
  | _ => false

/-- TABLE: `(?<=(FROM|JOIN|INTO)\s)\w+`. -/
def tryTable (prevRev cs : List Char) : Option (TokenType × List Char × List Char) :=
  if tableLookbehind prevRev then
    match cs.span isWordChar with
    | ([], _) => none
    | (m, r) => some (.TABLE, m, r)
  else none

/-- TABLE_ALIAS: `(?<=(FROM|JOIN|INTO)\s)\w+\s(\w+)`.  The named group
spans the whole match.  Because the TABLE alternative is tried first
and already matches whenever this one could, this alternative never
fires; it is kept to mirror the specification list. -/
def tryTableAliasRaw (prevRev cs : List Char) :
    Option (TokenType × List Char × List Char) :=
  if tableLookbehind prevRev then
    match cs.span isWordChar with
    | ([], _) => none
    | (m, r) =>
      match r with
      | s :: r2 =>
        if isSpaceChar s then
          match r2.span isWordChar with
          | ([], _) => none
          | (m2, r3) => some (.TABLE_ALIAS, m ++ s :: m2, r3)
        else none
      | [] => none
  else none

def isIdentStart (c : Char) : Bool := c.isAlpha || c = '_'

/-- IDENTIFIER: `\b[a-zA-Z_][a-zA-Z0-9_]*\b`. -/
def tryIdent (prevRev cs : List Char) : Option (TokenType × List Char × List Char) :=
  if prevIsWord prevRev then none
  else
    match cs with
    | c :: _ =>
      if isIdentStart c then
        match cs.span isWordChar with
        | (m, r) => some (.IDENTIFIER, m, r)
      else none
    | [] => none

/-- A quoted alternative of the LITERAL pattern, e.g. `\'[^\']*\'`: an
opening quote, a run of non-quote characters, a closing quote. -/
def matchQuotedTok (q : Char) : List Char → Option (List Char × List Char)
  | c :: cs =>
    if c = q then
      match cs.span (fun d => !(d = q)) with
      | (body, r0 :: r) => if r0 = q then some (q :: body ++ [q], r) else none
      | (_, []) => none
    else none
  | [] => none

/-- The numeric alternative of the LITERAL pattern, `\d+(\.\d+)?`. -/
def matchNumber (cs : List Char) : Option (List Char × List Char) :=
  match cs.span Char.isDigit with
  | ([], _) => none
  | (ds, r) =>
    match r with
    | r0 :: r2 =>
      if r0 = '.' then
        match r2.span Char.isDigit with
        | ([], _) => some (ds, r0 :: r2)
        | (ds2, r3) => some (ds ++ '.' :: ds2, r3)
      else some (ds, r0 :: r2)
    | [] => some (ds, [])

/-- LITERAL: `\'[^\']*\'|\"[^\"]*\"|\d+(\.\d+)?`, alternatives in order. -/
def tryLiteral (cs : List Char) : Option (TokenType × List Char × List Char) :=
  match matchQuotedTok '\'' cs with
  | some (m, r) => some (.LITERAL, m, r)
  | none =>
    match matchQuotedTok '"' cs with
    | some (m, r) => some (.LITERAL, m, r)
    | none =>
      match matchNumber cs with
      | some (m, r) => some (.LITERAL, m, r)
      | none => none

/-- SYMBOL: the `OP_PATTERN` alternation, alternatives in list order. -/
def trySymbol (cs : List Char) : Option (TokenType × List Char × List Char) :=
  match OP_LIST.findSome? fun op => matchExact op.data cs with
  | some (m, r) => some (.SYMBOL, m, r)
  | none => none

/-- WHITESPACE: `\s+`. -/
def tryWs (cs : List Char) : Option (TokenType × List Char × List Char) :=
  match cs.span isSpaceChar with
  | ([], _) => none
  | (m, r) => some (.WHITESPACE, m, r)

/-- UNKNOWN: `.` — any single character other than a newline. -/
def tryUnknown (cs : List Char) : Option (TokenType × List Char × List Char) :=
  match cs with
  | c :: r => if c = '\n' then none else some (.UNKNOWN, [c], r)
  | [] => none

/-- One step of the master regex at the current position: the ordered
alternation of `tokenize_sql`'s token specification. -/
def scanOne (prevRev cs : List Char) : Option (TokenType × List Char × List Char) :=
  match matchVocab ALL_SQL_FUNCTIONS prevRev cs with
  | some (m, r) => some (.FUNCTION, m, r)
  | none =>
  match matchVocab SQL_KEYWORDS prevRev cs with
  | some (m, r) => some (.KEYWORD, m, r)
  | none =>
  match tryTable prevRev cs with
  | some res => some res
  | none =>
  match tryTableAliasRaw prevRev cs with
  | some res => some res
  | none =>
  match tryIdent prevRev cs with
  | some res => some res
  | none =>
  match tryLiteral cs with
  | some res => some res
  | none =>
  match trySymbol cs with
  | some res => some res
  | none =>
  match tryWs cs with
  | some res => some res
  | none => tryUnknown cs

/-- The `finditer` walk: emit the match at the current position and
continue after it; a position where nothing matches is skipped (which
in fact never happens).  The fuel only bounds the recursion; one unit
per emitted token or skipped character is always enough. -/
def scanAux : Nat → List Char → List Char → List (TokenType × List Char)
  | 0, _, _ => []
  | _ + 1, _, [] => []
  | fuel + 1, prevRev, c :: cs =>
    match scanOne prevRev (c :: cs) with
    | some (tt, m, r) => (tt, m) :: scanAux fuel (m.reverse ++ prevRev) r
    | none => scanAux fuel (c :: prevRev) cs

/-- All matches of the master regex over the whole input, whitespace
matches included. -/
def rawScan (cs : List Char) : List (TokenType × List Char) :=
  scanAux (cs.length + 1) [] cs

/-- The non-whitespace matches, packaged as tokens: the loop body of
`tokenize_sql` appends every match except the WHITESPACE ones. -/
def tokensOfRaw (ps : List (TokenType × List Char)) : List Token :=
  (ps.filter fun p => !(p.1 == TokenType.WHITESPACE)).map fun p =>
    Token.mk p.1 (String.mk p.2) false

/-! ## `_post_process_tokens`: the contextual disambiguation passes -/

def lowerVal (s : String) : String := String.mk (s.data.map lowerChar)

def upperVal (s : String) : String := String.mk (s.data.map upperChar)

/-- `next_token.value.upper() not in SQL_KEYWORDS and ... not in
ALL_SQL_FUNCTIONS`. -/
def notVocabWord (s : String) : Bool :=
  !(SQL_KEYWORDS.contains (upperVal s)) && !(ALL_SQL_FUNCTIONS.contains (upperVal s))

/-- First pass of `_post_process_tokens`: the lower-cased values of all
IDENTIFIER tokens that immediately precede a literal `.` symbol.  This
pass only reads the token list. -/
def aliasesBeforePeriods (ts : List Token) : List String :=
  (List.range ts.length).filterMap fun i =>
    match ts[i]?, ts[i + 1]? with
    | some t, some n =>
      if t.type = TokenType.IDENTIFIER ∧ n.type = TokenType.SYMBOL ∧ n.value = "."
      then some (lowerVal t.value) else none
    | _, _ => none

/-- Second pass of `_post_process_tokens`, which rewrites the token list
in place while iterating; each iteration reads the current state of the
list, exactly as the Python `for i, token in enumerate(tokens)` loop
does over the mutated list.  Returns the rewritten list and the
accumulated `table_aliases` working set. -/
def pass2Go : Nat → Nat → List Token → List String → List Token × List String
  | 0, _, ts, al => (ts, al)
  | fuel + 1, i, ts, al =>
    match ts[i]? with
    | none => (ts, al)
    | some token =>
      if token.type = TokenType.TABLE ∧ i + 1 < ts.length then
        match ts[i + 1]? with
        | some next =>
          if next.type = TokenType.IDENTIFIER ∧ notVocabWord next.value then
            pass2Go fuel (i + 1)
              (ts.set (i + 1) (Token.mk TokenType.TABLE_ALIAS next.value next.space))
              (lowerVal next.value :: al)
          else pass2Go fuel (i + 1) ts al
        | none => pass2Go fuel (i + 1) ts al
      else if token.type = TokenType.KEYWORD ∧ upperVal token.value = "AS" ∧
          i + 1 < ts.length then
        match ts[i + 1]? with
        | some next =>
          if next.type = TokenType.IDENTIFIER ∧ notVocabWord next.value then
            pass2Go fuel (i + 1)
              (ts.set (i + 1) (Token.mk TokenType.IDENTIFIER_ALIAS next.value next.space))
              al
          else pass2Go fuel (i + 1) ts al
        | none => pass2Go fuel (i + 1) ts al
      else if token.type = TokenType.IDENTIFIER ∧ 0 < i ∧ i + 1 < ts.length then
        match ts[i - 1]?, ts[i + 1]? with
        | some prev, some next =>
          if (prev.type = TokenType.IDENTIFIER ∨ prev.type = TokenType.FUNCTION) ∧
              (next.value = "," ∨ next.value = "FROM") ∧ notVocabWord token.value then
            pass2Go fuel (i + 1)
              (ts.set i (Token.mk TokenType.IDENTIFIER_ALIAS token.value token.space)) al
          else pass2Go fuel (i + 1) ts al
        | _, _ => pass2Go fuel (i + 1) ts al
      else pass2Go fuel (i + 1) ts al

/-- Third pass of `_post_process_tokens`: an IDENTIFIER immediately
before a `.` symbol becomes TABLE_ALIAS when its lower-cased value is a
declared table alias or was seen before a period in the first pass. -/
def pass3Go : Nat → Nat → List Token → List String → List String → List Token
  | 0, _, ts, _, _ => ts
  | fuel + 1, i, ts, tblAl, abp =>
    match ts[i]? with
    | none => ts
    | some token =>
      if token.type = TokenType.IDENTIFIER ∧ i + 1 < ts.length then
        match ts[i + 1]? with
        | some next =>
          if next.type = TokenType.SYMBOL ∧ next.value = "." ∧
              (lowerVal token.value ∈ tblAl ∨ lowerVal token.value ∈ abp) then
            pass3Go fuel (i + 1)
              (ts.set i (Token.mk TokenType.TABLE_ALIAS token.value token.space)) tblAl abp
          else pass3Go fuel (i + 1) ts tblAl abp
        | none => pass3Go fuel (i + 1) ts tblAl abp
      else pass3Go fuel (i + 1) ts tblAl abp

def _post_process_tokens (ts : List Token) : List Token :=
  let abp := aliasesBeforePeriods ts
  let p2 := pass2Go ts.length 0 ts []
  pass3Go p2.1.length 0 p2.1 p2.2 abp

/-- `tokenize_sql` from utils.py: scan, drop whitespace, post-process. -/
def tokenize_sql (query : String) : List Token :=
  _post_process_tokens (tokensOfRaw (rawScan query.data))

/-! ## The casing and whitespace normalizer -/

/-- The body of a quoted region with backslash-escaped quotes honored:
`(?:\\.|[^q\\])*q` after the opening quote.  A backslash escapes the
next character (the regex dot does not match a newline); the region
fails when no unescaped closing quote follows.  The star has no choice
points, so plain left-to-right reading is exactly the regex's
behaviour. -/
def quotedBody (q : Char) : List Char → Option (List Char × List Char)
  | [] => none
  | c :: cs =>
    if c = q then some ([q], cs)
    else if c = '\\' then
      match cs with
      | [] => none
      | d :: cs' =>
        if d = '\n' then none
        else
          match quotedBody q cs' with
          | some (b, r) => some ('\\' :: d :: b, r)
          | none => none
    else
      match quotedBody q cs with
      | some (b, r) => some (c :: b, r)
      | none => none

/-- The scan of `normalize_casing`: double-quoted regions (guarded by the
`(?<!\\)` look-behind) and single-quoted regions pass through
verbatim, maximal runs of unquoted text are lower-cased, and a quote
character that opens no region is left in place and skipped, exactly
as `re.sub` skips a position where no alternative matches. -/
def normCaseAux : Nat → Option Char → List Char → List Char
  | 0, _, _ => []
  | _ + 1, _, [] => []
  | fuel + 1, prevc, c :: cs =>
    if c = '"' then
      if prevc ≠ some '\\' then
        match quotedBody '"' cs with
        | some (b, r) => c :: b ++ normCaseAux fuel (some '"') r
        | none => c :: normCaseAux fuel (some c) cs
      else c :: normCaseAux fuel (some c) cs
    else if c = '\'' then
      match quotedBody '\'' cs with
      | some (b, r) => c :: b ++ normCaseAux fuel (some '\'') r
      | none => c :: normCaseAux fuel (some c) cs
    else
      match (c :: cs).span fun d => !(d == '"' || d == '\'') with
      | (run, r) => lowerStr run ++ normCaseAux fuel (some (run.getLastD c)) r

def normalize_casing (text : String) : String :=
  String.mk (normCaseAux (text.length + 1) none text.data)

/-- The word splitter behind `collapse_extra_spaces`:
`re.split(r"\s+", text.strip())` produces exactly the maximal
non-whitespace runs (and a single empty piece for all-whitespace
input, which joins back to the empty string). -/
def splitWsAux : List Char → List Char → List (List Char)
  | [], acc => if acc = [] then [] else [acc.reverse]
  | c :: cs, acc =>
    if isSpaceChar c then
      if acc = [] then splitWsAux cs [] else acc.reverse :: splitWsAux cs []
    else splitWsAux cs (c :: acc)

def collapse_extra_spaces (text : String) : String :=
  String.mk (List.intercalate [' '] (splitWsAux text.data []))

/-- The scan of `normalize_keyword_casing`: at every word boundary try
the length-sorted keyword-and-function alternation case-insensitively;
a match is rewritten upper-case (`m.group(0).upper()`), anything else
is copied. -/
def nkcAux : Nat → Bool → List Char → List Char
  | 0, _, _ => []
  | _ + 1, _, [] => []
  | fuel + 1, prevWord, c :: cs =>
    if prevWord then c :: nkcAux fuel (isWordChar c) cs
    else
      match matchAlt keywordFunctionVocab (c :: cs) with
      | some (m, r) => upperStr m ++ nkcAux fuel true r
      | none => c :: nkcAux fuel (isWordChar c) cs

def normalize_keyword_casing (text : String) : String :=
  String.mk (nkcAux (text.length + 1) false text.data)

/-- `" ".join(token.value for token in tokens)`. -/
def joinValues (ts : List Token) : String :=
  String.intercalate " " (ts.map Token.value)

/-- `preprocess_text` from utils.py. -/
def preprocess_text (text : String) : String :=
  joinValues (tokenize_sql (normalize_keyword_casing (collapse_extra_spaces
    (normalize_casing text))))

/-! ## The anonymization mapping engine -/

/-- `TYPE_PREFIXES`, the anonymizable categories. -/
def TYPE_PREFIXES : List TokenType :=
  [TokenType.TABLE, TokenType.IDENTIFIER, TokenType.LITERAL]

/-- The observable mapping state of an `Anonymizer`: per anonymizable
category the insertion-ordered forward mapping, the reverse mapping and
the counter.  These are the only entries of the `defaultdict`s that any
operation of the engine ever writes or reads. -/
structure MappingState where
  mapTable : List (String × String)
  mapIdent : List (String × String)
  mapLit : List (String × String)
  revTable : List (String × String)
  revIdent : List (String × String)
  revLit : List (String × String)
  cntTable : Nat
  cntIdent : Nat
  cntLit : Nat
deriving DecidableEq, Repr

/-- The freshly-initialized (or cleared) state. -/
def emptyState : MappingState := ⟨[], [], [], [], [], [], 0, 0, 0⟩

/-- `self.mappings[t]`: a defaultdict, so categories never written read
as empty. -/
def MappingState.mappings (st : MappingState) : TokenType → List (String × String)
  | .TABLE => st.mapTable
  | .IDENTIFIER => st.mapIdent
  | .LITERAL => st.mapLit
  | _ => []

/-- `self.reverse_mappings[t]`. -/
def MappingState.reverse_mappings (st : MappingState) : TokenType → List (String × String)
  | .TABLE => st.revTable
  | .IDENTIFIER => st.revIdent
  | .LITERAL => st.revLit
  | _ => []

/-- `self.counters[t]` (a Counter: missing keys read as 0). -/
def MappingState.counters (st : MappingState) : TokenType → Nat
  | .TABLE => st.cntTable
  | .IDENTIFIER => st.cntIdent
  | .LITERAL => st.cntLit
  | _ => 0

/-- Ordered-dictionary lookup on the association list. -/
def alookup (k : String) : List (String × String) → Option String
  | [] => none
  | (a, b) :: rest => if k = a then some b else alookup k rest

/-- Insertion of a fresh pair into forward and reverse mapping plus the
counter bump, for one anonymizable category; dict insertion of a fresh
key appends in iteration order.  (Never reached for the other
categories.) -/
def insertMapping (st : MappingState) (tt : TokenType) (id ph : String) : MappingState :=
  match tt with
  | .TABLE =>
    { st with mapTable := st.mapTable ++ [(id, ph)],
              revTable := st.revTable ++ [(ph, id)],
              cntTable := st.cntTable + 1 }
  | .IDENTIFIER =>
    { st with mapIdent := st.mapIdent ++ [(id, ph)],
              revIdent := st.revIdent ++ [(ph, id)],
              cntIdent := st.cntIdent + 1 }
  | .LITERAL =>
    { st with mapLit := st.mapLit ++ [(id, ph)],
              revLit := st.revLit ++ [(ph, id)],
              cntLit := st.cntLit + 1 }
  | _ => st

/-- `Anonymizer._prefix`: the placeholder prefix, a `ValueError` for any
category outside the three anonymizable ones. -/
def typePrefixOf (tt : TokenType) : Except String String :=
  match tt with
  | .TABLE => .ok "table"
  | .IDENTIFIER => .ok "identifier"
  | .LITERAL => .ok "literal"
  | _ => .error "Unsupported token type"

/-- One decimal digit as a character. -/
def digitChar (d : Nat) : Char := Char.ofNat (48 + d)

/-- The decimal digits, most significant first; the fuel (any bound on
the number of digits) keeps the recursion structural. -/
def decDigitsAux : Nat → Nat → List Char
  | 0, _ => []
  | fuel + 1, n =>
    if n < 10 then [digitChar n]
    else decDigitsAux fuel (n / 10) ++ [digitChar (n % 10)]

/-- The decimal digits of a natural number, most significant first. -/
def decDigits (n : Nat) : List Char := decDigitsAux (n + 1) n

/-- Decimal rendering of a counter value, as the f-string renders it. -/
def natRepr (n : Nat) : String := String.mk (decDigits n)

/-- The minted placeholder text `prefix ++ "_" ++ counter`. -/
def mkPlaceholder (pfx : String) (n : Nat) : String := pfx ++ "_" ++ natRepr n

/-- `Anonymizer.get_or_assign`.  The TABLE_ALIAS branch compares the
alias against the head segment of each stored table placeholder but
returns the original identifier on both paths.  For the anonymizable
categories it is the get-or-create placeholder assignment; for every
other category the missing-prefix `ValueError` surfaces (in the source
the doomed call also bumps a counter key that nothing else can ever
read). -/
def get_or_assign (st : MappingState) (identifier : String) (token_type : TokenType) :
    Except String (String × MappingState) :=
  if token_type = TokenType.TABLE_ALIAS then
    if (st.mappings .TABLE).any (fun kv =>
        lowerVal identifier = lowerVal (String.mk (kv.2.data.takeWhile fun c => !(c = '_')))) then
      .ok (identifier, st)
    else .ok (identifier, st)
  else
    match alookup identifier (st.mappings token_type) with
    | some ph => .ok (ph, st)
    | none =>
      match typePrefixOf token_type with
      | .error e => .error e
      | .ok pfx =>
        let ph := mkPlaceholder pfx (st.counters token_type + 1)
        .ok (ph, insertMapping st token_type identifier ph)

/-- The token loop of `Anonymizer.anonymize_query`: tokens of the
anonymizable categories are replaced by their placeholder (threading
the growing state), all others are appended unchanged. -/
def anonymizeTokens (st : MappingState) :
    List Token → Except String (List Token × MappingState)
  | [] => .ok ([], st)
  | t :: ts =>
    if t.type ∈ TYPE_PREFIXES then
      match get_or_assign st t.value t.type with
      | .error e => .error e
      | .ok (v, st') =>
        match anonymizeTokens st' ts with
        | .error e => .error e
        | .ok (us, st'') => .ok (Token.mk t.type v t.space :: us, st'')
    else
      match anonymizeTokens st ts with
      | .error e => .error e
      | .ok (us, st'') => .ok (t :: us, st'')

/-- `Anonymizer.anonymize_query` (the auto-save of the mapping file is
I/O outside this model; with no mapping file it is disabled). -/
def anonymize_query (st : MappingState) (query : String) :
    Except String (String × MappingState) :=
  match anonymizeTokens st (tokenize_sql query) with
  | .error e => .error e
  | .ok (us, st') => .ok (joinValues us, st')

/-- The reverse-mapping probe of `de_anonymize_query`: the token value is
looked up in each anonymizable category's reverse map, stopping at the
first hit.  (The source iterates the set `TYPE_PREFIXES`, whose order
is unspecified; reverse keys of distinct categories carry distinct
prefixes for every state this development constructs, so the order
cannot matter there.) -/
def reverseLookup (st : MappingState) (v : String) : Option (TokenType × String) :=
  match alookup v st.revTable with
  | some orig => some (.TABLE, orig)
  | none =>
    match alookup v st.revIdent with
    | some orig => some (.IDENTIFIER, orig)
    | none =>
      match alookup v st.revLit with
      | some orig => some (.LITERAL, orig)
      | none => none

/-- The token loop of `Anonymizer.de_anonymize_query`, threading the
state it only ever reads. -/
def deAnonTokens (st : MappingState) : List Token → List Token × MappingState
  | [] => ([], st)
  | t :: ts =>
    let u := match reverseLookup st t.value with
      | some (tt, orig) => Token.mk tt orig t.space
      | none => t
    let p := deAnonTokens st ts
    (u :: p.1, p.2)

/-- `Anonymizer.de_anonymize_query`. -/
def de_anonymize_query (st : MappingState) (q : String) : String × MappingState :=
  let p := deAnonTokens st (tokenize_sql q)
  (joinValues p.1, p.2)

/-- `Anonymizer.clear_mappings` (its optional re-save of the now-empty
file is I/O outside this model). -/
def clear_mappings (_st : MappingState) : MappingState := emptyState

/-! ## The mapping persistence adapter -/

/-- The structured record `save_mappings_to_json` writes: per category
the forward mapping, the reverse mapping and the counter value, keyed
by `str(token_type)`.  JSON transport of string dictionaries and
integers is lossless, so the record itself is the byte format's
content. -/
structure SavedMappings where
  mappings : List (String × List (String × String))
  reverse_mappings : List (String × List (String × String))
  counters : List (String × Nat)
deriving DecidableEq, Repr

/-- `str(t)` for a `TokenType` member. -/
def tokenTypeKey : TokenType → String
  | .FUNCTION => "TokenType.FUNCTION"
  | .KEYWORD => "TokenType.KEYWORD"
  | .TABLE => "TokenType.TABLE"
  | .TABLE_ALIAS => "TokenType.TABLE_ALIAS"
  | .IDENTIFIER => "TokenType.IDENTIFIER"
  | .IDENTIFIER_ALIAS => "TokenType.IDENTIFIER_ALIAS"
  | .LITERAL => "TokenType.LITERAL"
  | .SYMBOL => "TokenType.SYMBOL"
  | .WHITESPACE => "TokenType.WHITESPACE"
  | .COMMENT => "TokenType.COMMENT"
  | .UNKNOWN => "TokenType.UNKNOWN"

/-- `Anonymizer.save_mappings_to_json`, minus the file write. -/
def save_mappings_to_json (st : MappingState) : SavedMappings :=
  { mappings := [(tokenTypeKey .TABLE, st.mapTable),
                 (tokenTypeKey .IDENTIFIER, st.mapIdent),
                 (tokenTypeKey .LITERAL, st.mapLit)],
    reverse_mappings := [(tokenTypeKey .TABLE, st.revTable),
                         (tokenTypeKey .IDENTIFIER, st.revIdent),
                         (tokenTypeKey .LITERAL, st.revLit)],
    counters := [(tokenTypeKey .TABLE, st.cntTable),
                 (tokenTypeKey .IDENTIFIER, st.cntIdent),
                 (tokenTypeKey .LITERAL, st.cntLit)] }

/-- `key.split(".")`: the dot-separated segments. -/
def splitDotAux : List Char → List Char → List (List Char)
  | [], acc => [acc.reverse]
  | c :: cs, acc =>
    if c = '.' then acc.reverse :: splitDotAux cs []
    else splitDotAux cs (c :: acc)

/-- `getattr(TokenType, key.split(".")[1])`: recover the member from the
stored key; an error when the key has no second segment (`IndexError`)
or the name is unknown (`AttributeError`). -/
def parseTokenTypeKey (s : String) : Except String TokenType :=
  match ((splitDotAux s.data []).map String.mk)[1]? with
  | none => .error "IndexError"
  | some name =>
    match name with
    | "FUNCTION" => .ok .FUNCTION
    | "KEYWORD" => .ok .KEYWORD
    | "TABLE" => .ok .TABLE
    | "TABLE_ALIAS" => .ok .TABLE_ALIAS
    | "IDENTIFIER" => .ok .IDENTIFIER
    | "IDENTIFIER_ALIAS" => .ok .IDENTIFIER_ALIAS
    | "LITERAL" => .ok .LITERAL
    | "SYMBOL" => .ok .SYMBOL
    | "WHITESPACE" => .ok .WHITESPACE
    | "COMMENT" => .ok .COMMENT
    | "UNKNOWN" => .ok .UNKNOWN
    | _ => .error "AttributeError"

/-- Setting a loaded forward mapping.  A category outside the three
anonymizable ones would populate a `defaultdict` entry that no
observable operation of the engine ever consults; the state does not
represent such entries. -/
def loadSetFwd (st : MappingState) (tt : TokenType) (m : List (String × String)) :
    MappingState :=
  match tt with
  | .TABLE => { st with mapTable := m }
  | .IDENTIFIER => { st with mapIdent := m }
  | .LITERAL => { st with mapLit := m }
  | _ => st

def loadSetRev (st : MappingState) (tt : TokenType) (m : List (String × String)) :
    MappingState :=
  match tt with
  | .TABLE => { st with revTable := m }
  | .IDENTIFIER => { st with revIdent := m }
  | .LITERAL => { st with revLit := m }
  | _ => st

def loadSetCnt (st : MappingState) (tt : TokenType) (n : Nat) : MappingState :=
  match tt with
  | .TABLE => { st with cntTable := n }
  | .IDENTIFIER => { st with cntIdent := n }
  | .LITERAL => { st with cntLit := n }
  | _ => st

def loadFold {α : Type} (upd : MappingState → TokenType → α → MappingState) :
    MappingState → List (String × α) → Except String MappingState
  | st, [] => .ok st
  | st, (k, v) :: rest =>
    match parseTokenTypeKey k with
    | .error e => .error e
    | .ok tt => loadFold upd (upd st tt v) rest

/-- `Anonymizer.load_mappings_from_json`, minus the file read: clear the
state, then restore the three sections in order. -/
def load_mappings_from_json (d : SavedMappings) : Except String MappingState :=
  match loadFold loadSetFwd emptyState d.mappings with
  | .error e => .error e
  | .ok st1 =>
    match loadFold loadSetRev st1 d.reverse_mappings with
    | .error e => .error e
    | .ok st2 => loadFold loadSetCnt st2 d.counters

/-! # Theorems

## Foundations: decimal rendering is injective -/

/-- The numeric value a digit list denotes. -/
def decVal (ds : List Char) : Nat :=
  ds.foldl (fun a c => 10 * a + (c.toNat - 48)) 0

theorem decVal_append (ds : List Char) (c : Char) :
    decVal (ds ++ [c]) = 10 * decVal ds + (c.toNat - 48) := by
  simp [decVal, List.foldl_append]

theorem toNat_digitChar {d : Nat} (h : d < 10) : (digitChar d).toNat = 48 + d := by
  interval_cases d <;> decide

theorem decVal_decDigitsAux :
    ∀ fuel n, n < fuel → decVal (decDigitsAux fuel n) = n := by
  intro fuel
  induction fuel with
  | zero => omega
  | succ f ih =>
    intro n h
    unfold decDigitsAux
    split
    · next hlt =>
      simp [decVal, toNat_digitChar hlt]
    · next hge =>
      rw [decVal_append, ih (n / 10) (by omega), toNat_digitChar (Nat.mod_lt n (by omega))]
      omega

theorem decVal_decDigits (n : Nat) : decVal (decDigits n) = n :=
  decVal_decDigitsAux (n + 1) n (Nat.lt_succ_self n)

theorem decDigits_injective {a b : Nat} (h : decDigits a = decDigits b) : a = b := by
  have := congrArg decVal h
  rwa [decVal_decDigits, decVal_decDigits] at this

theorem natRepr_injective {a b : Nat} (h : natRepr a = natRepr b) : a = b :=
  decDigits_injective (List.asString_inj.mp h)

theorem mkPlaceholder_data (pfx : String) (n : Nat) :
    (mkPlaceholder pfx n).data = pfx.data ++ '_' :: decDigits n := by
  simp [mkPlaceholder, natRepr]

theorem mkPlaceholder_inj_num {pfx : String} {a b : Nat}
    (h : mkPlaceholder pfx a = mkPlaceholder pfx b) : a = b := by
  apply decDigits_injective
  have := congrArg String.data h
  rw [mkPlaceholder_data, mkPlaceholder_data] at this
  have := List.append_cancel_left this
  exact List.cons_injective this

/-! ## C3: the INSERT INTO scenario -/

/-- C3, counterexample: anonymizing
`"INSERT INTO orders (id, amount) VALUES (1, 100);"` from the empty
state does not produce the output the claim asserts: `orders` follows
`INTO`, which the TABLE pattern's look-behind accepts, so it is
classified `Table` and becomes `table_1`, and the numeric literals
become `literal_1`, `literal_2`. -/
theorem c3_counterexample :
    (anonymize_query emptyState "INSERT INTO orders (id, amount) VALUES (1, 100);").map
        Prod.fst ≠
      Except.ok "INSERT INTO identifier_1 ( identifier_2 , identifier_3 ) VALUES ( 1 , 100 ) ;" :=
  fun h => absurd (Except.ok.inj h) (by decide)

/-- C3, amended: anonymizing
`"INSERT INTO orders (id, amount) VALUES (1, 100);"` from the empty
state produces
`"INSERT INTO table_1 ( identifier_1 , identifier_2 ) VALUES ( literal_1 , literal_2 ) ;"`;
the table name after `INSERT INTO` classifies as `Table` (the tokenizer's
look-behind accepts `INTO` alongside `FROM` and `JOIN`), and the numeric
literals are anonymized to `literal_N` placeholders.  This matches the
repository's own tokenizer test, which expects the `TABLE` class for
`orders` here. -/
theorem c3_amended :
    (anonymize_query emptyState "INSERT INTO orders (id, amount) VALUES (1, 100);").map
        Prod.fst =
      Except.ok "INSERT INTO table_1 ( identifier_1 , identifier_2 ) VALUES ( literal_1 , literal_2 ) ;" ∧
    (tokenize_sql "INSERT INTO orders (id, amount) VALUES (1, 100);").map Token.type =
      [TokenType.KEYWORD, TokenType.KEYWORD, TokenType.TABLE, TokenType.SYMBOL,
       TokenType.IDENTIFIER, TokenType.SYMBOL, TokenType.IDENTIFIER, TokenType.SYMBOL,
       TokenType.KEYWORD, TokenType.SYMBOL, TokenType.LITERAL, TokenType.SYMBOL,
       TokenType.LITERAL, TokenType.SYMBOL, TokenType.SYMBOL] := by
  exact ⟨rfl, rfl⟩

/-! ## C4: quoted regions and the normalization steps -/

/-- C4, counterexample: the whitespace-collapsing and keyword-upper-casing
steps are quote-blind — they do alter quoted content.  A doubled space
inside a single-quoted string is collapsed, and a quoted lower-case
keyword is upper-cased. -/
theorem c4_counterexample :
    collapse_extra_spaces "' a  b '" = "' a b '" ∧
      ("' a b '" : String) ≠ "' a  b '" ∧
      normalize_keyword_casing "'select'" = "'SELECT'" ∧
      ("'SELECT'" : String) ≠ "'select'" := by
  exact ⟨rfl, by decide, rfl, by decide⟩

/-- C4, amended: only the lower-casing step honors quotes: wherever the
scan of `normalize_casing` reaches an opening quote that begins a
well-formed quoted region (for a double quote: one not preceded by a
backslash), the entire region is emitted character-for-character,
unaltered. -/
theorem c4_amended_normalize_casing_passthrough
    (q : Char) (cs b r : List Char) (prev : Option Char) (fuel : Nat)
    (hq : q = '\'' ∨ (q = '"' ∧ prev ≠ some '\\'))
    (hbody : quotedBody q cs = some (b, r)) :
    normCaseAux (fuel + 1) prev (q :: cs) = q :: (b ++ normCaseAux fuel (some q) r) := by
  rcases hq with hq | ⟨hq, hprev⟩
  · subst hq
    conv_lhs => rw [normCaseAux]
    simp [hbody]
  · subst hq
    conv_lhs => rw [normCaseAux]
    simp [hprev, hbody]

/-- Witness for the amended C4: a double-quoted region containing a
keyword-shaped word and doubled spaces survives `normalize_casing`
verbatim. -/
theorem c4_amended_witness :
    normCaseAux (13 + 1) none ('"' :: "SELECT  A\\\"b\"".data) =
      '"' :: ("SELECT  A\\\"b\"".data ++ normCaseAux 13 (some '"') []) := by
  exact c4_amended_normalize_casing_passthrough '"' "SELECT  A\\\"b\"".data
    "SELECT  A\\\"b\"".data [] none 13 (Or.inr ⟨rfl, by decide⟩) (by decide)

/-! ## C9, counterexample part: `preprocess_text` is not idempotent -/

/-- C9, counterexample: for the input `\""G"a` the first pass keeps `G`
upper-case (it lies in a double-quoted region whose opening quote is
preceded by a backslash-quote pair), but re-joining the tokens with
spaces makes the second pass parse different quote regions, and the
`G` is lower-cased the second time. -/
theorem c9_counterexample :
    preprocess_text (preprocess_text "\\\"\"G\"a") ≠ preprocess_text "\\\"\"G\"a" := by
  decide

/-! ## C8: persistence round-trip -/

/-- C8: loading the saved image of any mapping state restores the state
exactly — forward mappings, reverse mappings and counters of all three
anonymizable categories, the empty state included. -/
theorem load_save_roundtrip (st : MappingState) :
    load_mappings_from_json (save_mappings_to_json st) = Except.ok st := by
  cases st
  rfl

/-! ## C10: de-anonymization never modifies the state -/

theorem deAnonTokens_state (ts : List Token) (st : MappingState) :
    (deAnonTokens st ts).2 = st := by
  induction ts with
  | nil => rfl
  | cons t ts ih => simp [deAnonTokens, ih]

/-- C10: `de_anonymize_query` is a read-only lookup — for every state and
every input text the mapping state it returns is the one it was given:
the token loop only consults the reverse mappings and never writes any
category's forward map, reverse map or counter. -/
theorem de_anonymize_query_state (st : MappingState) (q : String) :
    (de_anonymize_query st q).2 = st := by
  simp [de_anonymize_query, deAnonTokens_state]

/-! ## C5: the tokenizer is total — matcher specifications -/

theorem matchCI_spec :
    ∀ (p cs m r : List Char), matchCI p cs = some (m, r) →
      cs = m ++ r ∧ m.length = p.length := by
  intro p
  induction p with
  | nil =>
    intro cs m r h
    simp only [matchCI, Option.some.injEq, Prod.mk.injEq] at h
    obtain ⟨h1, h2⟩ := h
    subst h1; subst h2
    simp
  | cons p ps ih =>
    intro cs m r h
    cases cs with
    | nil => simp [matchCI] at h
    | cons c cs' =>
      simp only [matchCI] at h
      split at h
      · cases hm : matchCI ps cs' with
        | none => rw [hm] at h; exact absurd h (by simp)
        | some pr =>
          rw [hm] at h
          obtain ⟨m', r'⟩ := pr
          simp only [Option.some.injEq, Prod.mk.injEq] at h
          obtain ⟨hc, hr⟩ := h
          obtain ⟨hcs, hlen⟩ := ih cs' m' r' hm
          subst hr
          simp [← hc, hcs, hlen]
      · exact absurd h (by simp)

theorem matchExact_spec :
    ∀ (p cs m r : List Char), matchExact p cs = some (m, r) →
      cs = m ++ r ∧ m = p := by
  intro p
  induction p with
  | nil =>
    intro cs m r h
    simp only [matchExact, Option.some.injEq, Prod.mk.injEq] at h
    obtain ⟨h1, h2⟩ := h
    subst h1; subst h2
    simp
  | cons p ps ih =>
    intro cs m r h
    cases cs with
    | nil => simp [matchExact] at h
    | cons c cs' =>
      simp only [matchExact] at h
      split at h
      · next hcp =>
        cases hm : matchExact ps cs' with
        | none => rw [hm] at h; exact absurd h (by simp)
        | some pr =>
          rw [hm] at h
          obtain ⟨m', r'⟩ := pr
          simp only [Option.some.injEq, Prod.mk.injEq] at h
          obtain ⟨hc, hr⟩ := h
          obtain ⟨hcs, hmp⟩ := ih cs' m' r' hm
          subst hr
          simp [← hc, hcs, hmp, hcp]
      · exact absurd h (by simp)

theorem matchAlt_spec {vocab : List String} {cs m r : List Char}
    (h : matchAlt vocab cs = some (m, r)) :
    cs = m ++ r ∧ ∃ w ∈ vocab, m.length = w.data.length := by
  obtain ⟨w, hw, hmw⟩ := List.exists_of_findSome?_eq_some h
  cases hci : matchCI w.data cs with
  | none => rw [hci] at hmw; exact absurd hmw (by simp)
  | some pr =>
    obtain ⟨m', r'⟩ := pr
    rw [hci] at hmw
    simp only at hmw
    split at hmw
    case isTrue hb =>
      simp only [Option.some.injEq, Prod.mk.injEq] at hmw
      obtain ⟨hm, hr⟩ := hmw
      subst hm; subst hr
      obtain ⟨hcs, hlen⟩ := matchCI_spec _ _ _ _ hci
      exact ⟨hcs, w, hw, hlen⟩
    case isFalse hb => exact absurd hmw (by simp)

theorem matchVocab_spec {vocab : List String} {prevRev cs m r : List Char}
    (h : matchVocab vocab prevRev cs = some (m, r)) :
    cs = m ++ r ∧ ∃ w ∈ vocab, m.length = w.data.length := by
  unfold matchVocab at h
  split at h
  · exact absurd h (by simp)
  · exact matchAlt_spec h

theorem span_append (p : Char → Bool) (l : List Char) :
    (l.span p).1 ++ (l.span p).2 = l := by
  rw [List.span_eq_take_drop]
  exact List.takeWhile_append_dropWhile p l

theorem tryTable_spec {prevRev cs m r : List Char} {tt : TokenType}
    (h : tryTable prevRev cs = some (tt, m, r)) : cs = m ++ r ∧ m ≠ [] := by
  unfold tryTable at h
  split at h
  · cases hsp : cs.span isWordChar with
    | mk a b =>
      rw [hsp] at h
      cases a with
      | nil => exact absurd h (by simp)
      | cons x xs =>
        simp only [Option.some.injEq, Prod.mk.injEq] at h
        obtain ⟨-, hm, hr⟩ := h
        subst hm; subst hr
        constructor
        · have := span_append isWordChar cs
          rw [hsp] at this
          exact this.symm
        · simp
  · exact absurd h (by simp)

theorem tryTableAliasRaw_spec {prevRev cs m r : List Char} {tt : TokenType}
    (h : tryTableAliasRaw prevRev cs = some (tt, m, r)) : cs = m ++ r ∧ m ≠ [] := by
  unfold tryTableAliasRaw at h
  split at h
  · cases hsp : cs.span isWordChar with
    | mk a b =>
      rw [hsp] at h
      have hab : a ++ b = cs := by
        have := span_append isWordChar cs
        rw [hsp] at this
        exact this
      cases a with
      | nil => exact absurd h (by simp)
      | cons x xs =>
        cases b with
        | nil => exact absurd h (by simp)
        | cons s b' =>
          simp only at h
          split at h
          · cases hsp2 : b'.span isWordChar with
            | mk a2 b2 =>
              rw [hsp2] at h
              have hab2 : a2 ++ b2 = b' := by
                have := span_append isWordChar b'
                rw [hsp2] at this
                exact this
              cases a2 with
              | nil => exact absurd h (by simp)
              | cons y ys =>
                simp only [Option.some.injEq, Prod.mk.injEq] at h
                obtain ⟨-, hm, hr⟩ := h
                subst hm; subst hr
                constructor
                · rw [← hab, ← hab2]
                  simp
                · simp
          · exact absurd h (by simp)
  · exact absurd h (by simp)

theorem tryIdent_spec {prevRev cs m r : List Char} {tt : TokenType}
    (h : tryIdent prevRev cs = some (tt, m, r)) : cs = m ++ r ∧ m ≠ [] := by
  unfold tryIdent at h
  split at h
  · exact absurd h (by simp)
  · cases cs with
    | nil => exact absurd h (by simp)
    | cons c cs' =>
      simp only at h
      split at h
      · next hstart =>
        rw [List.span_eq_take_drop] at h
        simp only [Option.some.injEq, Prod.mk.injEq] at h
        obtain ⟨-, hm, hr⟩ := h
        subst hm; subst hr
        have hcw : isWordChar c = true := by
          unfold isIdentStart at hstart
          unfold isWordChar
          rcases Bool.or_eq_true_iff.mp hstart with h1 | h1 <;> simp [h1]
        constructor
        · exact (List.takeWhile_append_dropWhile isWordChar (c :: cs')).symm
        · rw [List.takeWhile_cons_of_pos hcw]
          simp
      · exact absurd h (by simp)

theorem matchQuotedTok_spec {q : Char} {cs m r : List Char}
    (h : matchQuotedTok q cs = some (m, r)) : cs = m ++ r ∧ m ≠ [] := by
  cases cs with
  | nil => exact absurd h (by simp [matchQuotedTok])
  | cons c cs' =>
    simp only [matchQuotedTok] at h
    split at h
    · next hcq =>
      cases hsp : cs'.span (fun d => !(d = q)) with
      | mk body rest =>
        rw [hsp] at h
        have hab : body ++ rest = cs' := by
          have := span_append (fun d => !(d = q)) cs'
          rw [hsp] at this
          exact this
        cases rest with
        | nil => exact absurd h (by simp)
        | cons r0 r' =>
          simp only at h
          split at h
          · next hr0 =>
            simp only [Option.some.injEq, Prod.mk.injEq] at h
            obtain ⟨hm, hr⟩ := h
            subst hm; subst hr
            subst hcq; subst hr0
            constructor
            · rw [← hab]; simp
            · simp
          · exact absurd h (by simp)
    · exact absurd h (by simp)

theorem matchNumber_spec {cs m r : List Char}
    (h : matchNumber cs = some (m, r)) : cs = m ++ r ∧ m ≠ [] := by
  unfold matchNumber at h
  cases hsp : cs.span Char.isDigit with
  | mk ds rest =>
    rw [hsp] at h
    have hab : ds ++ rest = cs := by
      have := span_append Char.isDigit cs
      rw [hsp] at this
      exact this
    cases ds with
    | nil => exact absurd h (by simp)
    | cons d ds' =>
      cases rest with
      | nil =>
        simp only [Option.some.injEq, Prod.mk.injEq] at h
        obtain ⟨hm, hr⟩ := h
        subst hm; subst hr
        simp only [List.append_nil] at hab
        exact ⟨by simp [← hab], by simp⟩
      | cons r0 r2 =>
        simp only at h
        split at h
        · next hr0 =>
          subst hr0
          cases hsp2 : r2.span Char.isDigit with
          | mk ds2 r3 =>
            rw [hsp2] at h
            have hab2 : ds2 ++ r3 = r2 := by
              have := span_append Char.isDigit r2
              rw [hsp2] at this
              exact this
            cases ds2 with
            | nil =>
              simp only [Option.some.injEq, Prod.mk.injEq] at h
              obtain ⟨hm, hr⟩ := h
              subst hm; subst hr
              exact ⟨hab.symm, by simp⟩
            | cons y ys =>
              simp only [Option.some.injEq, Prod.mk.injEq] at h
              obtain ⟨hm, hr⟩ := h
              subst hm; subst hr
              constructor
              · rw [← hab, ← hab2]; simp
              · simp
        · simp only [Option.some.injEq, Prod.mk.injEq] at h
          obtain ⟨hm, hr⟩ := h
          subst hm; subst hr
          exact ⟨hab.symm, by simp⟩

theorem tryLiteral_spec {cs m r : List Char} {tt : TokenType}
    (h : tryLiteral cs = some (tt, m, r)) : cs = m ++ r ∧ m ≠ [] := by
  unfold tryLiteral at h
  cases h1 : matchQuotedTok '\'' cs with
  | some pr =>
    rw [h1] at h
    obtain ⟨m', r'⟩ := pr
    simp only [Option.some.injEq, Prod.mk.injEq] at h
    obtain ⟨-, hm, hr⟩ := h
    subst hm; subst hr
    exact matchQuotedTok_spec h1
  | none =>
    rw [h1] at h
    cases h2 : matchQuotedTok '"' cs with
    | some pr =>
      rw [h2] at h
      obtain ⟨m', r'⟩ := pr
      simp only [Option.some.injEq, Prod.mk.injEq] at h
      obtain ⟨-, hm, hr⟩ := h
      subst hm; subst hr
      exact matchQuotedTok_spec h2
    | none =>
      rw [h2] at h
      cases h3 : matchNumber cs with
      | some pr =>
        rw [h3] at h
        obtain ⟨m', r'⟩ := pr
        simp only [Option.some.injEq, Prod.mk.injEq] at h
        obtain ⟨-, hm, hr⟩ := h
        subst hm; subst hr
        exact matchNumber_spec h3
      | none => rw [h3] at h; exact absurd h (by simp)

theorem trySymbol_spec {cs m r : List Char} {tt : TokenType}
    (h : trySymbol cs = some (tt, m, r)) : cs = m ++ r ∧ m ≠ [] := by
  unfold trySymbol at h
  cases hf : OP_LIST.findSome? (fun op => matchExact op.data cs) with
  | none => rw [hf] at h; exact absurd h (by simp)
  | some pr =>
    rw [hf] at h
    obtain ⟨m', r'⟩ := pr
    simp only [Option.some.injEq, Prod.mk.injEq] at h
    obtain ⟨-, hm, hr⟩ := h
    subst hm; subst hr
    obtain ⟨w, hw, hmw⟩ := List.exists_of_findSome?_eq_some hf
    obtain ⟨hcs, hmp⟩ := matchExact_spec _ _ _ _ hmw
    refine ⟨hcs, ?_⟩
    subst hmp
    fin_cases hw <;> simp

theorem tryWs_spec {cs m r : List Char} {tt : TokenType}
    (h : tryWs cs = some (tt, m, r)) : cs = m ++ r ∧ m ≠ [] := by
  unfold tryWs at h
  cases hsp : cs.span isSpaceChar with
  | mk a b =>
    rw [hsp] at h
    have hab : a ++ b = cs := by
      have := span_append isSpaceChar cs
      rw [hsp] at this
      exact this
    cases a with
    | nil => exact absurd h (by simp)
    | cons x xs =>
      simp only [Option.some.injEq, Prod.mk.injEq] at h
      obtain ⟨-, hm, hr⟩ := h
      subst hm; subst hr
      exact ⟨hab.symm, by simp⟩

theorem tryUnknown_spec {cs m r : List Char} {tt : TokenType}
    (h : tryUnknown cs = some (tt, m, r)) : cs = m ++ r ∧ m ≠ [] := by
  cases cs with
  | nil => exact absurd h (by simp [tryUnknown])
  | cons c cs' =>
    simp only [tryUnknown] at h
    split at h
    · exact absurd h (by simp)
    · simp only [Option.some.injEq, Prod.mk.injEq] at h
      obtain ⟨-, hm, hr⟩ := h
      subst hm; subst hr
      exact ⟨rfl, by simp⟩

theorem scanOne_spec {prevRev cs m r : List Char} {tt : TokenType}
    (h : scanOne prevRev cs = some (tt, m, r)) : cs = m ++ r ∧ m ≠ [] := by
  unfold scanOne at h
  cases h1 : matchVocab ALL_SQL_FUNCTIONS prevRev cs with
  | some pr =>
    rw [h1] at h
    obtain ⟨m', r'⟩ := pr
    simp only [Option.some.injEq, Prod.mk.injEq] at h
    obtain ⟨-, hm, hr⟩ := h
    subst hm; subst hr
    obtain ⟨hcs, w, hw, hlen⟩ := matchVocab_spec h1
    refine ⟨hcs, ?_⟩
    intro hnil
    subst hnil
    simp only [List.length_nil] at hlen
    fin_cases hw <;> simp_all
  | none =>
    rw [h1] at h
    cases h2 : matchVocab SQL_KEYWORDS prevRev cs with
    | some pr =>
      rw [h2] at h
      obtain ⟨m', r'⟩ := pr
      simp only [Option.some.injEq, Prod.mk.injEq] at h
      obtain ⟨-, hm, hr⟩ := h
      subst hm; subst hr
      obtain ⟨hcs, w, hw, hlen⟩ := matchVocab_spec h2
      refine ⟨hcs, ?_⟩
      intro hnil
      subst hnil
      simp only [List.length_nil] at hlen
      fin_cases hw <;> simp_all
    | none =>
      rw [h2] at h
      cases h3 : tryTable prevRev cs with
      | some res =>
        rw [h3] at h
        simp only [Option.some.injEq] at h
        obtain ⟨t3, m3, r3⟩ := res
        cases h
        exact tryTable_spec h3
      | none =>
        rw [h3] at h
        cases h4 : tryTableAliasRaw prevRev cs with
        | some res =>
          rw [h4] at h
          simp only [Option.some.injEq] at h
          obtain ⟨t4, m4, r4⟩ := res
          cases h
          exact tryTableAliasRaw_spec h4
        | none =>
          rw [h4] at h
          cases h5 : tryIdent prevRev cs with
          | some res =>
            rw [h5] at h
            simp only [Option.some.injEq] at h
            obtain ⟨t5, m5, r5⟩ := res
            cases h
            exact tryIdent_spec h5
          | none =>
            rw [h5] at h
            cases h6 : tryLiteral cs with
            | some res =>
              rw [h6] at h
              simp only [Option.some.injEq] at h
              obtain ⟨t6, m6, r6⟩ := res
              cases h
              exact tryLiteral_spec h6
            | none =>
              rw [h6] at h
              cases h7 : trySymbol cs with
              | some res =>
                rw [h7] at h
                simp only [Option.some.injEq] at h
                obtain ⟨t7, m7, r7⟩ := res
                cases h
                exact trySymbol_spec h7
              | none =>
                rw [h7] at h
                cases h8 : tryWs cs with
                | some res =>
                  rw [h8] at h
                  simp only [Option.some.injEq] at h
                  obtain ⟨t8, m8, r8⟩ := res
                  cases h
                  exact tryWs_spec h8
                | none =>
                  rw [h8] at h
                  exact tryUnknown_spec h

theorem scanOne_total (prevRev : List Char) (c : Char) (cs : List Char) :
    ∃ res, scanOne prevRev (c :: cs) = some res := by
  unfold scanOne
  cases h1 : matchVocab ALL_SQL_FUNCTIONS prevRev (c :: cs)
  case some pr => exact ⟨_, rfl⟩
  case none =>
  cases h2 : matchVocab SQL_KEYWORDS prevRev (c :: cs)
  case some pr => exact ⟨_, rfl⟩
  case none =>
  cases h3 : tryTable prevRev (c :: cs)
  case some res => exact ⟨_, rfl⟩
  case none =>
  cases h4 : tryTableAliasRaw prevRev (c :: cs)
  case some res => exact ⟨_, rfl⟩
  case none =>
  cases h5 : tryIdent prevRev (c :: cs)
  case some res => exact ⟨_, rfl⟩
  case none =>
  cases h6 : tryLiteral (c :: cs)
  case some res => exact ⟨_, rfl⟩
  case none =>
  cases h7 : trySymbol (c :: cs)
  case some res => exact ⟨_, rfl⟩
  case none =>
  cases h8 : tryWs (c :: cs)
  case some res => exact ⟨_, rfl⟩
  case none =>
  -- whitespace failed, so the head is not a whitespace character, in
  -- particular not a newline: the UNKNOWN fallback matches.
  have hcsp : isSpaceChar c = false := by
    by_contra hc
    have hc' : isSpaceChar c = true := by
      cases hcc : isSpaceChar c
      · exact absurd hcc hc
      · rfl
    unfold tryWs at h8
    rw [List.span_eq_take_drop, List.takeWhile_cons_of_pos hc'] at h8
    simp at h8
  have hnl : c ≠ '\n' := by
    intro hc
    subst hc
    exact absurd hcsp (by decide)
  refine ⟨(.UNKNOWN, [c], cs), ?_⟩
  simp [tryUnknown, hnl]

/-- Coverage of the raw scan: the matches partition the input exactly. -/
theorem scanAux_join :
    ∀ (fuel : Nat) (prevRev cs : List Char), cs.length ≤ fuel →
      ((scanAux fuel prevRev cs).map Prod.snd).flatten = cs := by
  intro fuel
  induction fuel with
  | zero =>
    intro prevRev cs h
    rw [Nat.le_zero] at h
    rw [List.length_eq_zero] at h
    subst h
    rfl
  | succ f ih =>
    intro prevRev cs h
    cases cs with
    | nil => rfl
    | cons c cs' =>
      show ((match scanOne prevRev (c :: cs') with
        | some (tt, m, r) => (tt, m) :: scanAux f (m.reverse ++ prevRev) r
        | none => scanAux f (c :: prevRev) cs').map Prod.snd).flatten = c :: cs'
      obtain ⟨⟨tt, m, r⟩, hres⟩ := scanOne_total prevRev c cs'
      rw [hres]
      obtain ⟨hcs, hm⟩ := scanOne_spec hres
      have hr : r.length ≤ f := by
        have hlen : cs'.length + 1 = m.length + r.length := by
          have := congrArg List.length hcs
          simpa using this
        have hml : 1 ≤ m.length := by
          cases m with
          | nil => exact absurd rfl hm
          | cons x xs => simp
        simp only [List.length_cons] at h
        omega
      simp only [List.map_cons, List.flatten_cons]
      rw [ih (m.reverse ++ prevRev) r hr]
      exact hcs.symm

/-- Every match of the raw scan is nonempty. -/
theorem scanAux_nonempty :
    ∀ (fuel : Nat) (prevRev cs : List Char) (p : TokenType × List Char),
      p ∈ scanAux fuel prevRev cs → p.2 ≠ [] := by
  intro fuel
  induction fuel with
  | zero => intro prevRev cs p hp; simp [scanAux] at hp
  | succ f ih =>
    intro prevRev cs p hp
    cases cs with
    | nil => simp [scanAux] at hp
    | cons c cs' =>
      rw [show scanAux (f + 1) prevRev (c :: cs') =
        (match scanOne prevRev (c :: cs') with
          | some (tt, m, r) => (tt, m) :: scanAux f (m.reverse ++ prevRev) r
          | none => scanAux f (c :: prevRev) cs') from rfl] at hp
      cases hres : scanOne prevRev (c :: cs') with
      | some res =>
        obtain ⟨tt, m, r⟩ := res
        rw [hres] at hp
        rcases List.mem_cons.mp hp with hp | hp
        · subst hp
          exact (scanOne_spec hres).2
        · exact ih _ _ _ hp
      | none =>
        rw [hres] at hp
        exact ih _ _ _ hp

/-! ## C5: the disambiguation passes only reclassify

`_post_process_tokens` never inserts, deletes or rewrites the text of a
token: every rewrite keeps the value and the `space` flag and only turns
a category into TABLE_ALIAS or IDENTIFIER_ALIAS. -/

/-- The relation between a token list and any of its rewrites by the
disambiguation passes. -/
def Preserves (a b : List Token) : Prop :=
  b.length = a.length ∧
    ∀ i, (h1 : i < a.length) → (h2 : i < b.length) →
      b[i].value = a[i].value ∧ b[i].space = a[i].space ∧
        (b[i].type = a[i].type ∨ b[i].type = TokenType.TABLE_ALIAS ∨
          b[i].type = TokenType.IDENTIFIER_ALIAS)

theorem Preserves.refl (a : List Token) : Preserves a a :=
  ⟨rfl, fun _ _ _ => ⟨rfl, rfl, Or.inl rfl⟩⟩

theorem Preserves.set {a b : List Token} (h : Preserves a b) {k : Nat} {tok : Token}
    (hk : k < b.length)
    (htok : tok.value = b[k].value ∧ tok.space = b[k].space ∧
      (tok.type = TokenType.TABLE_ALIAS ∨ tok.type = TokenType.IDENTIFIER_ALIAS)) :
    Preserves a (b.set k tok) := by
  obtain ⟨hlen, hpt⟩ := h
  refine ⟨by simp [hlen], ?_⟩
  intro i h1 h2
  rw [List.length_set] at h2
  by_cases hik : i = k
  · subst hik
    rw [List.getElem_set_self (by omega)]
    obtain ⟨hv, hs, ht⟩ := hpt i h1 hk
    exact ⟨htok.1.trans hv, htok.2.1.trans hs, Or.inr htok.2.2⟩
  · rw [List.getElem_set_ne (by omega)]
    exact hpt i h1 h2

theorem pass2Go_preserves {a : List Token} :
    ∀ (fuel i : Nat) (ts : List Token) (al : List String), Preserves a ts →
      Preserves a (pass2Go fuel i ts al).1 := by
  intro fuel
  induction fuel with
  | zero => intro i ts al h; exact h
  | succ f ih =>
    intro i ts al h
    unfold pass2Go
    cases hti : ts[i]? with
    | none => exact h
    | some token =>
      simp only
      split
      · cases htn : ts[i + 1]? with
        | some next =>
          simp only
          split
          · obtain ⟨hlt, hnx⟩ := List.getElem?_eq_some.mp htn
            refine ih _ _ _ (h.set hlt ?_)
            rw [hnx]
            exact ⟨rfl, rfl, Or.inl rfl⟩
          · exact ih _ _ _ h
        | none => exact ih _ _ _ h
      · split
        · cases htn : ts[i + 1]? with
          | some next =>
            simp only
            split
            · obtain ⟨hlt, hnx⟩ := List.getElem?_eq_some.mp htn
              refine ih _ _ _ (h.set hlt ?_)
              rw [hnx]
              exact ⟨rfl, rfl, Or.inr rfl⟩
            · exact ih _ _ _ h
          | none => exact ih _ _ _ h
        · split
          · next hcond =>
            cases htp : ts[i - 1]? with
            | none => exact ih _ _ _ h
            | some prev =>
              cases htn : ts[i + 1]? with
              | none => exact ih _ _ _ h
              | some next =>
                simp only
                split
                · obtain ⟨hlt, hnx⟩ := List.getElem?_eq_some.mp hti
                  refine ih _ _ _ (h.set hlt ?_)
                  rw [hnx]
                  exact ⟨rfl, rfl, Or.inr rfl⟩
                · exact ih _ _ _ h
          · exact ih _ _ _ h

theorem pass3Go_preserves {a : List Token} :
    ∀ (fuel i : Nat) (ts : List Token) (tblAl abp : List String), Preserves a ts →
      Preserves a (pass3Go fuel i ts tblAl abp) := by
  intro fuel
  induction fuel with
  | zero => intro i ts tblAl abp h; exact h
  | succ f ih =>
    intro i ts tblAl abp h
    unfold pass3Go
    cases hti : ts[i]? with
    | none => exact h
    | some token =>
      simp only
      split
      · cases htn : ts[i + 1]? with
        | some next =>
          simp only
          split
          · obtain ⟨hlt, hnx⟩ := List.getElem?_eq_some.mp hti
            refine ih _ _ _ _ (h.set hlt ?_)
            rw [hnx]
            exact ⟨rfl, rfl, Or.inl rfl⟩
          · exact ih _ _ _ _ h
        | none => exact ih _ _ _ _ h
      · exact ih _ _ _ _ h

theorem post_process_preserves (ts : List Token) :
    Preserves ts (_post_process_tokens ts) := by
  unfold _post_process_tokens
  exact pass3Go_preserves _ _ _ _ _ (pass2Go_preserves _ _ _ _ (Preserves.refl ts))

/-- Which branch produced a match determines its token type; only the
final fallback yields UNKNOWN, and it consumes exactly one character. -/
theorem tryTable_type {prevRev cs m r : List Char} {tt : TokenType}
    (h : tryTable prevRev cs = some (tt, m, r)) : tt = TokenType.TABLE := by
  unfold tryTable at h
  split at h
  · split at h
    · exact absurd h (by simp)
    · simp only [Option.some.injEq, Prod.mk.injEq] at h
      exact h.1.symm
  · exact absurd h (by simp)

theorem tryTableAliasRaw_type {prevRev cs m r : List Char} {tt : TokenType}
    (h : tryTableAliasRaw prevRev cs = some (tt, m, r)) : tt = TokenType.TABLE_ALIAS := by
  unfold tryTableAliasRaw at h
  split at h
  · split at h
    · exact absurd h (by simp)
    · next r' heq =>
      split at h
      · split at h
        · split at h
          · exact absurd h (by simp)
          · simp only [Option.some.injEq, Prod.mk.injEq] at h
            exact h.1.symm
        · exact absurd h (by simp)
      · exact absurd h (by simp)
  · exact absurd h (by simp)

theorem tryIdent_type {prevRev cs m r : List Char} {tt : TokenType}
    (h : tryIdent prevRev cs = some (tt, m, r)) : tt = TokenType.IDENTIFIER := by
  unfold tryIdent at h
  split at h
  · exact absurd h (by simp)
  · split at h
    · split at h
      · split at h
        simp only [Option.some.injEq, Prod.mk.injEq] at h
        exact h.1.symm
      · exact absurd h (by simp)
    · exact absurd h (by simp)

theorem tryLiteral_type {cs m r : List Char} {tt : TokenType}
    (h : tryLiteral cs = some (tt, m, r)) : tt = TokenType.LITERAL := by
  unfold tryLiteral at h
  cases h1 : matchQuotedTok '\'' cs with
  | some pr =>
    rw [h1] at h
    obtain ⟨m', r'⟩ := pr
    simp only [Option.some.injEq, Prod.mk.injEq] at h
    exact h.1.symm
  | none =>
    rw [h1] at h
    cases h2 : matchQuotedTok '"' cs with
    | some pr =>
      rw [h2] at h
      obtain ⟨m', r'⟩ := pr
      simp only [Option.some.injEq, Prod.mk.injEq] at h
      exact h.1.symm
    | none =>
      rw [h2] at h
      cases h3 : matchNumber cs with
      | some pr =>
        rw [h3] at h
        obtain ⟨m', r'⟩ := pr
        simp only [Option.some.injEq, Prod.mk.injEq] at h
        exact h.1.symm
      | none => rw [h3] at h; exact absurd h (by simp)

theorem trySymbol_type {cs m r : List Char} {tt : TokenType}
    (h : trySymbol cs = some (tt, m, r)) : tt = TokenType.SYMBOL := by
  unfold trySymbol at h
  cases hf : OP_LIST.findSome? (fun op => matchExact op.data cs) with
  | none => rw [hf] at h; exact absurd h (by simp)
  | some pr =>
    rw [hf] at h
    obtain ⟨m', r'⟩ := pr
    simp only [Option.some.injEq, Prod.mk.injEq] at h
    exact h.1.symm

theorem tryWs_type {cs m r : List Char} {tt : TokenType}
    (h : tryWs cs = some (tt, m, r)) : tt = TokenType.WHITESPACE := by
  unfold tryWs at h
  split at h
  · exact absurd h (by simp)
  · simp only [Option.some.injEq, Prod.mk.injEq] at h
    exact h.1.symm

theorem tryUnknown_len {cs m r : List Char} {tt : TokenType}
    (h : tryUnknown cs = some (tt, m, r)) : m.length = 1 := by
  cases cs with
  | nil => exact absurd h (by simp [tryUnknown])
  | cons c cs' =>
    simp only [tryUnknown] at h
    split at h
    · exact absurd h (by simp)
    · simp only [Option.some.injEq, Prod.mk.injEq] at h
      rw [← h.2.1]
      rfl

theorem scanOne_unknown {prevRev cs m r : List Char}
    (h : scanOne prevRev cs = some (TokenType.UNKNOWN, m, r)) : m.length = 1 := by
  unfold scanOne at h
  cases h1 : matchVocab ALL_SQL_FUNCTIONS prevRev cs with
  | some pr =>
    rw [h1] at h
    obtain ⟨m', r'⟩ := pr
    simp only [Option.some.injEq, Prod.mk.injEq] at h
    exact absurd h.1 (by simp)
  | none =>
    rw [h1] at h
    cases h2 : matchVocab SQL_KEYWORDS prevRev cs with
    | some pr =>
      rw [h2] at h
      obtain ⟨m', r'⟩ := pr
      simp only [Option.some.injEq, Prod.mk.injEq] at h
      exact absurd h.1 (by simp)
    | none =>
      rw [h2] at h
      cases h3 : tryTable prevRev cs with
      | some res =>
        rw [h3] at h
        obtain ⟨t3, m3, r3⟩ := res
        simp only [Option.some.injEq] at h
        cases h
        exact absurd (tryTable_type h3) (by simp)
      | none =>
        rw [h3] at h
        cases h4 : tryTableAliasRaw prevRev cs with
        | some res =>
          rw [h4] at h
          obtain ⟨t4, m4, r4⟩ := res
          simp only [Option.some.injEq] at h
          cases h
          exact absurd (tryTableAliasRaw_type h4) (by simp)
        | none =>
          rw [h4] at h
          cases h5 : tryIdent prevRev cs with
          | some res =>
            rw [h5] at h
            obtain ⟨t5, m5, r5⟩ := res
            simp only [Option.some.injEq] at h
            cases h
            exact absurd (tryIdent_type h5) (by simp)
          | none =>
            rw [h5] at h
            cases h6 : tryLiteral cs with
            | some res =>
              rw [h6] at h
              obtain ⟨t6, m6, r6⟩ := res
              simp only [Option.some.injEq] at h
              cases h
              exact absurd (tryLiteral_type h6) (by simp)
            | none =>
              rw [h6] at h
              cases h7 : trySymbol cs with
              | some res =>
                rw [h7] at h
                obtain ⟨t7, m7, r7⟩ := res
                simp only [Option.some.injEq] at h
                cases h
                exact absurd (trySymbol_type h7) (by simp)
              | none =>
                rw [h7] at h
                cases h8 : tryWs cs with
                | some res =>
                  rw [h8] at h
                  obtain ⟨t8, m8, r8⟩ := res
                  simp only [Option.some.injEq] at h
                  cases h
                  exact absurd (tryWs_type h8) (by simp)
                | none =>
                  rw [h8] at h
                  exact tryUnknown_len h

theorem scanAux_unknown :
    ∀ (fuel : Nat) (prevRev cs : List Char) (p : TokenType × List Char),
      p ∈ scanAux fuel prevRev cs → p.1 = TokenType.UNKNOWN → p.2.length = 1 := by
  intro fuel
  induction fuel with
  | zero => intro prevRev cs p hp; simp [scanAux] at hp
  | succ f ih =>
    intro prevRev cs p hp hu
    cases cs with
    | nil => simp [scanAux] at hp
    | cons c cs' =>
      rw [show scanAux (f + 1) prevRev (c :: cs') =
        (match scanOne prevRev (c :: cs') with
          | some (tt, m, r) => (tt, m) :: scanAux f (m.reverse ++ prevRev) r
          | none => scanAux f (c :: prevRev) cs') from rfl] at hp
      cases hres : scanOne prevRev (c :: cs') with
      | some res =>
        obtain ⟨tt, m, r⟩ := res
        rw [hres] at hp
        rcases List.mem_cons.mp hp with hp | hp
        · subst hp
          simp only at hu
          subst hu
          exact scanOne_unknown hres
        · exact ih _ _ _ hp hu
      | none =>
        rw [hres] at hp
        exact ih _ _ _ hp hu

/-- The rewrites of the disambiguation passes keep the value list. -/
theorem Preserves.map_value {a b : List Token} (h : Preserves a b) :
    b.map Token.value = a.map Token.value := by
  obtain ⟨hlen, hpt⟩ := h
  apply List.ext_getElem
  · simp [hlen]
  · intro i h1 h2
    simp only [List.getElem_map]
    exact (hpt i (by simpa using h2) (by simpa using h1)).1

theorem tokensOfRaw_no_ws {ps : List (TokenType × List Char)} {t : Token}
    (ht : t ∈ tokensOfRaw ps) : t.type ≠ TokenType.WHITESPACE := by
  unfold tokensOfRaw at ht
  obtain ⟨p, hp, hpt⟩ := List.mem_map.mp ht
  have := List.of_mem_filter hp
  intro hws
  rw [← hpt] at hws
  simp only at hws
  rw [hws] at this
  simp at this

theorem tokensOfRaw_unknown_len {s : String} {t : Token}
    (ht : t ∈ tokensOfRaw (rawScan s.data)) (hu : t.type = TokenType.UNKNOWN) :
    t.value.length = 1 := by
  unfold tokensOfRaw at ht
  obtain ⟨p, hp, hpt⟩ := List.mem_map.mp ht
  have hpmem : p ∈ rawScan s.data := List.mem_of_mem_filter hp
  have hty : p.1 = TokenType.UNKNOWN := by
    rw [← hpt] at hu
    exact hu
  have hlen := scanAux_unknown _ _ _ p hpmem hty
  rw [← hpt]
  simpa [String.length] using hlen

/-- C5: `tokenize_sql` is total and deterministic on every input: the raw
scan covers every byte of the input with exactly one nonempty match,
whitespace matches are discarded and never emitted, the emitted token
values are exactly the non-whitespace match texts, and every UNKNOWN
token is a single character. -/
theorem tokenize_sql_total (s : String) :
    ((rawScan s.data).map Prod.snd).flatten = s.data ∧
    (∀ p ∈ rawScan s.data, p.2 ≠ []) ∧
    ((tokenize_sql s).map Token.value =
      ((rawScan s.data).filter fun p => !(p.1 == TokenType.WHITESPACE)).map
        fun p => String.mk p.2) ∧
    (∀ t ∈ tokenize_sql s, t.type ≠ TokenType.WHITESPACE) ∧
    (∀ t ∈ tokenize_sql s, t.type = TokenType.UNKNOWN → t.value.length = 1) := by
  refine ⟨scanAux_join _ _ _ (Nat.le_succ _), fun p hp => scanAux_nonempty _ _ _ p hp,
    ?_, ?_, ?_⟩
  · show (_post_process_tokens (tokensOfRaw (rawScan s.data))).map Token.value = _
    rw [(post_process_preserves (tokensOfRaw (rawScan s.data))).map_value]
    unfold tokensOfRaw
    rw [List.map_map]
    rfl
  · intro t ht
    obtain ⟨i, hi, hit⟩ := List.mem_iff_getElem.mp ht
    have hpres := post_process_preserves (tokensOfRaw (rawScan s.data))
    obtain ⟨hlen, hpt⟩ := hpres
    unfold tokenize_sql at hi hit
    obtain ⟨hv, hs, htyp⟩ := hpt i (by omega) hi
    subst hit
    rcases htyp with htyp | htyp | htyp
    · rw [htyp]
      exact tokensOfRaw_no_ws (List.getElem_mem _)
    · rw [htyp]; simp
    · rw [htyp]; simp
  · intro t ht hu
    obtain ⟨i, hi, hit⟩ := List.mem_iff_getElem.mp ht
    have hpres := post_process_preserves (tokensOfRaw (rawScan s.data))
    obtain ⟨hlen, hpt⟩ := hpres
    unfold tokenize_sql at hi hit
    obtain ⟨hv, hs, htyp⟩ := hpt i (by omega) hi
    subst hit
    have hib : i < (tokensOfRaw (rawScan s.data)).length := by omega
    have htu : ((tokensOfRaw (rawScan s.data))[i]).type = TokenType.UNKNOWN := by
      rcases htyp with htyp | htyp | htyp
      · rw [← htyp]; exact hu
      · rw [htyp] at hu; exact absurd hu (by simp)
      · rw [htyp] at hu; exact absurd hu (by simp)
    rw [hv]
    exact tokensOfRaw_unknown_len (List.getElem_mem _) htu

/-- Witness instance for C5 at a concrete input containing an
uninterpretable byte. -/
theorem tokenize_sql_total_witness :
    ((rawScan "SELECT @a".data).map Prod.snd).flatten = "SELECT @a".data ∧
      (Token.mk TokenType.UNKNOWN "@" false).value.length = 1 := by
  refine ⟨(tokenize_sql_total "SELECT @a").1, ?_⟩
  exact (tokenize_sql_total "SELECT @a").2.2.2.2 (Token.mk TokenType.UNKNOWN "@" false)
    (by decide) (by decide)

/-! ## The mapping-state invariant (C2, C6) -/

/-- The placeholder prefix of an anonymizable category. -/
def pfxOf : TokenType → String
  | .TABLE => "table"
  | .IDENTIFIER => "identifier"
  | .LITERAL => "literal"
  | _ => ""

/-- The invariant of one category's maps: the placeholders of the forward
map are exactly `prefix_1 .. prefix_cnt` in first-seen order, the keys
are distinct, and the reverse map is the exact mirror. -/
def CatInv (fwd rev : List (String × String)) (cnt : Nat) (pfx : String) : Prop :=
  fwd.map Prod.snd = (List.range' 1 cnt).map (mkPlaceholder pfx) ∧
    (fwd.map Prod.fst).Nodup ∧
    rev = fwd.map (fun kv => (kv.2, kv.1))

/-- The full state invariant, per anonymizable category. -/
def Inv (st : MappingState) : Prop :=
  ∀ tt ∈ TYPE_PREFIXES,
    CatInv (st.mappings tt) (st.reverse_mappings tt) (st.counters tt) (pfxOf tt)

theorem inv_empty : Inv emptyState := by
  intro tt htt
  fin_cases htt <;> exact ⟨rfl, List.nodup_nil, rfl⟩

theorem alookup_mem {k v : String} : ∀ {l : List (String × String)},
    alookup k l = some v → (k, v) ∈ l := by
  intro l
  induction l with
  | nil => intro h; exact absurd h (by simp [alookup])
  | cons kv rest ih =>
    intro h
    obtain ⟨a, b⟩ := kv
    simp only [alookup] at h
    split at h
    · next hk =>
      simp only [Option.some.injEq] at h
      subst hk; subst h
      exact List.mem_cons_self _ _
    · exact List.mem_cons_of_mem _ (ih h)

theorem alookup_none_not_mem {k : String} : ∀ {l : List (String × String)},
    alookup k l = none → k ∉ l.map Prod.fst := by
  intro l
  induction l with
  | nil => intro _ h; simp at h
  | cons kv rest ih =>
    intro h hm
    obtain ⟨a, b⟩ := kv
    simp only [alookup] at h
    split at h
    · exact absurd h (by simp)
    · next hk =>
      simp only [List.map_cons, List.mem_cons] at hm
      rcases hm with hm | hm
      · exact hk hm
      · exact ih h hm

theorem alookup_append_of_none {k : String} {l1 l2 : List (String × String)}
    (h : alookup k l1 = none) : alookup k (l1 ++ l2) = alookup k l2 := by
  induction l1 with
  | nil => rfl
  | cons kv rest ih =>
    obtain ⟨a, b⟩ := kv
    simp only [alookup] at h ⊢
    split at h
    · exact absurd h (by simp)
    · next hk =>
      rw [if_neg hk]
      exact ih h

/-- `get_or_assign` on an anonymizable category, hit case. -/
theorem get_or_assign_hit {st : MappingState} {id ph : String} {tt : TokenType}
    (htt : tt ∈ TYPE_PREFIXES) (h : alookup id (st.mappings tt) = some ph) :
    get_or_assign st id tt = .ok (ph, st) := by
  fin_cases htt <;> simp [get_or_assign, h]

/-- `get_or_assign` on an anonymizable category, miss case: the fresh
placeholder is minted from the bumped counter and inserted. -/
theorem get_or_assign_miss {st : MappingState} {id : String} {tt : TokenType}
    (htt : tt ∈ TYPE_PREFIXES) (h : alookup id (st.mappings tt) = none) :
    get_or_assign st id tt =
      .ok (mkPlaceholder (pfxOf tt) (st.counters tt + 1),
        insertMapping st tt id (mkPlaceholder (pfxOf tt) (st.counters tt + 1))) := by
  fin_cases htt <;> simp [get_or_assign, h, typePrefixOf, pfxOf, insertMapping]

/-- The fields of the state after an insertion, seen through the
accessors. -/
theorem insertMapping_mappings {st : MappingState} {id ph : String} {tt : TokenType}
    (htt : tt ∈ TYPE_PREFIXES) :
    ∀ tt' ∈ TYPE_PREFIXES,
      (insertMapping st tt id ph).mappings tt' =
        (if tt' = tt then st.mappings tt' ++ [(id, ph)] else st.mappings tt') ∧
      (insertMapping st tt id ph).reverse_mappings tt' =
        (if tt' = tt then st.reverse_mappings tt' ++ [(ph, id)] else st.reverse_mappings tt') ∧
      (insertMapping st tt id ph).counters tt' =
        (if tt' = tt then st.counters tt' + 1 else st.counters tt') := by
  intro tt' htt'
  fin_cases htt <;> fin_cases htt' <;>
    simp [insertMapping, MappingState.mappings, MappingState.reverse_mappings,
      MappingState.counters]

theorem range'_concat_ph (pfx : String) (cnt : Nat) :
    (List.range' 1 (cnt + 1)).map (mkPlaceholder pfx) =
      (List.range' 1 cnt).map (mkPlaceholder pfx) ++ [mkPlaceholder pfx (cnt + 1)] := by
  rw [List.range'_concat]
  simp [Nat.add_comm]

/-- Minting preserves the invariant. -/
theorem get_or_assign_inv {st st' : MappingState} {id ph : String} {tt : TokenType}
    (hinv : Inv st) (htt : tt ∈ TYPE_PREFIXES)
    (h : get_or_assign st id tt = .ok (ph, st')) : Inv st' := by
  cases hl : alookup id (st.mappings tt) with
  | some ph0 =>
    rw [get_or_assign_hit htt hl] at h
    simp only [Except.ok.injEq, Prod.mk.injEq] at h
    rw [← h.2]
    exact hinv
  | none =>
    rw [get_or_assign_miss htt hl] at h
    simp only [Except.ok.injEq, Prod.mk.injEq] at h
    rw [← h.2]
    intro tt' htt'
    obtain ⟨hm, hr, hc⟩ := @insertMapping_mappings st id
      (mkPlaceholder (pfxOf tt) (st.counters tt + 1)) tt htt tt' htt'
    obtain ⟨hsnd, hkeys, hrev⟩ := hinv tt' htt'
    by_cases het : tt' = tt
    · subst het
      rw [hm, hr, hc, if_pos rfl, if_pos rfl, if_pos rfl]
      refine ⟨?_, ?_, ?_⟩
      · rw [List.map_append, hsnd, range'_concat_ph]
        rfl
      · rw [List.map_append]
        rw [List.nodup_append]
        refine ⟨hkeys, List.nodup_singleton _, ?_⟩
        intro a ha hb
        simp only [List.map_cons, List.map_nil, List.mem_singleton] at hb
        subst hb
        exact alookup_none_not_mem hl ha
      · rw [hrev, List.map_append]
        rfl
    · rw [hm, hr, hc, if_neg het, if_neg het, if_neg het]
      exact ⟨hsnd, hkeys, hrev⟩

/-- The anonymization loop preserves the invariant. -/
theorem anonymizeTokens_inv :
    ∀ (ts : List Token) (st us st'), Inv st →
      anonymizeTokens st ts = .ok (us, st') → Inv st' := by
  intro ts
  induction ts with
  | nil =>
    intro st us st' hinv h
    simp only [anonymizeTokens, Except.ok.injEq, Prod.mk.injEq] at h
    rw [← h.2]
    exact hinv
  | cons t ts ih =>
    intro st us st' hinv h
    unfold anonymizeTokens at h
    split at h
    · next htt =>
      cases hga : get_or_assign st t.value t.type with
      | error e => rw [hga] at h; exact absurd h (by simp)
      | ok pr =>
        obtain ⟨v, st1⟩ := pr
        rw [hga] at h
        simp only at h
        cases han : anonymizeTokens st1 ts with
        | error e => rw [han] at h; exact absurd h (by simp)
        | ok pr2 =>
          obtain ⟨us2, st2⟩ := pr2
          rw [han] at h
          simp only [Except.ok.injEq, Prod.mk.injEq] at h
          rw [← h.2]
          exact ih st1 us2 st2 (get_or_assign_inv hinv htt hga) han
    · cases han : anonymizeTokens st ts with
      | error e => rw [han] at h; exact absurd h (by simp)
      | ok pr2 =>
        obtain ⟨us2, st2⟩ := pr2
        rw [han] at h
        simp only [Except.ok.injEq, Prod.mk.injEq] at h
        rw [← h.2]
        exact ih st us2 st2 hinv han

/-- The save/load round trip, as a shared lemma. -/
theorem loadSave_eq (st : MappingState) :
    load_mappings_from_json (save_mappings_to_json st) = Except.ok st := by
  cases st
  rfl

/-- The states reachable through the engine's operations during one
lifetime: freshly constructed, grown by anonymization, cleared, or
persisted and re-hydrated. -/
inductive Reachable : MappingState → Prop where
  | empty : Reachable emptyState
  | anon {st out st'} (q : String) : Reachable st →
      anonymize_query st q = .ok (out, st') → Reachable st'
  | clear {st} : Reachable st → Reachable (clear_mappings st)
  | loadsave {st st'} : Reachable st →
      load_mappings_from_json (save_mappings_to_json st) = .ok st' → Reachable st'

theorem reachable_inv {st : MappingState} (h : Reachable st) : Inv st := by
  induction h with
  | empty => exact inv_empty
  | @anon st0 out st' q _ hq ih =>
    unfold anonymize_query at hq
    cases han : anonymizeTokens st0 (tokenize_sql q) with
    | error e => rw [han] at hq; exact absurd hq (by simp)
    | ok pr =>
      obtain ⟨us, st2⟩ := pr
      rw [han] at hq
      simp only [Except.ok.injEq, Prod.mk.injEq] at hq
      rw [← hq.2]
      exact anonymizeTokens_inv _ _ _ _ ih han
  | clear _ ih => exact inv_empty
  | loadsave _ hls ih =>
    rename_i st0 st'
    rw [loadSave_eq] at hls
    simp only [Except.ok.injEq] at hls
    rw [← hls]
    exact ih

/-! ## C6: the counter invariant -/

/-- C6: after any sequence of engine operations (anonymize, clear,
save-then-load), each anonymizable category's counter equals the size
of its forward map, and the placeholders stored in the forward map are
exactly `prefix_1 .. prefix_counter`, minted in first-seen order. -/
theorem counter_invariant (st : MappingState) (h : Reachable st)
    (tt : TokenType) (htt : tt ∈ TYPE_PREFIXES) :
    st.counters tt = (st.mappings tt).length ∧
      (st.mappings tt).map Prod.snd =
        (List.range' 1 (st.counters tt)).map (mkPlaceholder (pfxOf tt)) := by
  obtain ⟨hsnd, -, -⟩ := reachable_inv h tt htt
  refine ⟨?_, hsnd⟩
  have := congrArg List.length hsnd
  simpa using this.symm

/-- Witness for C6 at the freshly-created state. -/
theorem counter_invariant_witness :
    emptyState.counters TokenType.IDENTIFIER =
        (emptyState.mappings TokenType.IDENTIFIER).length ∧
      (emptyState.mappings TokenType.IDENTIFIER).map Prod.snd =
        (List.range' 1 (emptyState.counters TokenType.IDENTIFIER)).map
          (mkPlaceholder (pfxOf TokenType.IDENTIFIER)) :=
  counter_invariant emptyState Reachable.empty TokenType.IDENTIFIER (by decide)

/-! ## C2: stability and injectivity of placeholder assignment -/

/-- Any stored placeholder of a category has the category's prefixed,
bounded shape. -/
theorem mem_placeholder_shape {st : MappingState} {tt : TokenType} {v p : String}
    (hinv : Inv st) (htt : tt ∈ TYPE_PREFIXES) (hm : (v, p) ∈ st.mappings tt) :
    ∃ j, 1 ≤ j ∧ j ≤ st.counters tt ∧ p = mkPlaceholder (pfxOf tt) j := by
  obtain ⟨hsnd, -, -⟩ := hinv tt htt
  have hp : p ∈ (st.mappings tt).map Prod.snd := List.mem_map.mpr ⟨(v, p), hm, rfl⟩
  rw [hsnd] at hp
  obtain ⟨j, hj, hjp⟩ := List.mem_map.mp hp
  rw [List.mem_range'_1] at hj
  exact ⟨j, hj.1, by omega, hjp.symm⟩

/-- Within one invariant state and category, distinct keys hold distinct
placeholders. -/
theorem mem_placeholder_inj {st : MappingState} {tt : TokenType} {v1 v2 p1 p2 : String}
    (hinv : Inv st) (htt : tt ∈ TYPE_PREFIXES)
    (h1 : (v1, p1) ∈ st.mappings tt) (h2 : (v2, p2) ∈ st.mappings tt)
    (hv : v1 ≠ v2) : p1 ≠ p2 := by
  obtain ⟨hsnd, -, -⟩ := hinv tt htt
  have hnd : ((st.mappings tt).map Prod.snd).Nodup := by
    rw [hsnd]
    have hrnd : (List.range' 1 (st.counters tt)).Nodup :=
      List.nodup_range' 1 (st.counters tt) 1 (by omega)
    exact hrnd.map_on (fun a _ b _ hab => mkPlaceholder_inj_num hab)
  intro hp
  subst hp
  have := List.inj_on_of_nodup_map hnd h1 h2 rfl
  simp only [Prod.mk.injEq] at this
  exact hv this.1

theorem underscore_split :
    ∀ (l1 : List Char) (t1 : List Char) (l2 t2 : List Char),
      '_' ∉ l1 → '_' ∉ l2 → l1 ++ '_' :: t1 = l2 ++ '_' :: t2 → l1 = l2 := by
  intro l1
  induction l1 with
  | nil =>
    intro t1 l2 t2 h1 h2 h
    cases l2 with
    | nil => rfl
    | cons c l2' =>
      simp only [List.nil_append, List.cons_append, List.cons.injEq] at h
      exact absurd (h.1 ▸ List.mem_cons_self _ _) h2
  | cons c l1' ih =>
    intro t1 l2 t2 h1 h2 h
    cases l2 with
    | nil =>
      simp only [List.cons_append, List.nil_append, List.cons.injEq] at h
      exact absurd (h.1 ▸ List.mem_cons_self _ _) h1
    | cons d l2' =>
      simp only [List.cons_append, List.cons.injEq] at h
      rw [h.1, ih t1 l2' t2 (fun hm => h1 (List.mem_cons_of_mem _ hm))
        (fun hm => h2 (List.mem_cons_of_mem _ hm)) h.2]

/-- Placeholders of categories with different prefixes never collide. -/
theorem mkPlaceholder_pfx_ne {p1 p2 : String} {a b : Nat}
    (h1 : '_' ∉ p1.data) (h2 : '_' ∉ p2.data) (hne : p1 ≠ p2) :
    mkPlaceholder p1 a ≠ mkPlaceholder p2 b := by
  intro h
  have hd := congrArg String.data h
  rw [mkPlaceholder_data, mkPlaceholder_data] at hd
  have := underscore_split p1.data (decDigits a) p2.data (decDigits b) h1 h2 hd
  exact hne (String.ext this)

theorem pfxOf_ne {tt1 tt2 : TokenType} (h1 : tt1 ∈ TYPE_PREFIXES)
    (h2 : tt2 ∈ TYPE_PREFIXES) (hne : tt1 ≠ tt2) : pfxOf tt1 ≠ pfxOf tt2 := by
  fin_cases h1 <;> fin_cases h2 <;> first | exact absurd rfl hne | decide

theorem pfxOf_no_underscore {tt : TokenType} (htt : tt ∈ TYPE_PREFIXES) :
    '_' ∉ (pfxOf tt).data := by
  fin_cases htt <;> decide

/-- The entry call 1 creates or finds is present in the state it returns. -/
theorem get_or_assign_mem {st st1 : MappingState} {v p : String} {tt : TokenType}
    (_hinv : Inv st) (htt : tt ∈ TYPE_PREFIXES)
    (h : get_or_assign st v tt = .ok (p, st1)) : (v, p) ∈ st1.mappings tt := by
  cases hl : alookup v (st.mappings tt) with
  | some p0 =>
    rw [get_or_assign_hit htt hl] at h
    simp only [Except.ok.injEq, Prod.mk.injEq] at h
    rw [← h.1, ← h.2]
    exact alookup_mem hl
  | none =>
    rw [get_or_assign_miss htt hl] at h
    simp only [Except.ok.injEq, Prod.mk.injEq] at h
    rw [← h.1, ← h.2]
    obtain ⟨hm, -, -⟩ := @insertMapping_mappings st v
      (mkPlaceholder (pfxOf tt) (st.counters tt + 1)) tt htt tt htt
    rw [hm, if_pos rfl]
    exact List.mem_append_right _ (List.mem_singleton.mpr rfl)

/-- C2: within one state lifetime, anonymizing the same value twice (in
an anonymizable category) yields the same placeholder both times, and
anonymizing two distinct values (in any anonymizable categories) never
yields the same placeholder. -/
theorem placeholder_stability (st : MappingState) (hst : Reachable st)
    (tt : TokenType) (htt : tt ∈ TYPE_PREFIXES) :
    (∀ v p p' st1 st2, get_or_assign st v tt = .ok (p, st1) →
      get_or_assign st1 v tt = .ok (p', st2) → p = p') ∧
    (∀ (tt2 : TokenType), tt2 ∈ TYPE_PREFIXES → ∀ v1 v2 p1 p2 st1 st2, v1 ≠ v2 →
      get_or_assign st v1 tt = .ok (p1, st1) →
      get_or_assign st1 v2 tt2 = .ok (p2, st2) → p1 ≠ p2) := by
  have hinv : Inv st := reachable_inv hst
  constructor
  · intro v p p' st1 st2 h1 h2
    cases hl : alookup v (st.mappings tt) with
    | some p0 =>
      rw [get_or_assign_hit htt hl] at h1
      simp only [Except.ok.injEq, Prod.mk.injEq] at h1
      rw [← h1.2] at h2
      rw [get_or_assign_hit htt hl] at h2
      simp only [Except.ok.injEq, Prod.mk.injEq] at h2
      rw [← h1.1, ← h2.1]
    | none =>
      rw [get_or_assign_miss htt hl] at h1
      simp only [Except.ok.injEq, Prod.mk.injEq] at h1
      have hl2 : alookup v (st1.mappings tt) = some p := by
        rw [← h1.2, ← h1.1]
        obtain ⟨hm, -, -⟩ := @insertMapping_mappings st v
          (mkPlaceholder (pfxOf tt) (st.counters tt + 1)) tt htt tt htt
        rw [hm, if_pos rfl, alookup_append_of_none hl]
        simp [alookup]
      rw [get_or_assign_hit htt hl2] at h2
      simp only [Except.ok.injEq, Prod.mk.injEq] at h2
      exact h2.1
  · intro tt2 htt2 v1 v2 p1 p2 st1 st2 hv h1 h2
    have hinv1 : Inv st1 := get_or_assign_inv hinv htt h1
    have hmem1 : (v1, p1) ∈ st1.mappings tt := get_or_assign_mem hinv htt h1
    cases hl2 : alookup v2 (st1.mappings tt2) with
    | some p0 =>
      rw [get_or_assign_hit htt2 hl2] at h2
      simp only [Except.ok.injEq, Prod.mk.injEq] at h2
      have hmem2 : (v2, p2) ∈ st1.mappings tt2 := by
        rw [← h2.1]
        exact alookup_mem hl2
      by_cases het : tt2 = tt
      · subst het
        exact mem_placeholder_inj hinv1 htt2 hmem1 hmem2 hv
      · obtain ⟨j, hj1, hj2, hjp⟩ := mem_placeholder_shape hinv1 htt hmem1
        obtain ⟨k, hk1, hk2, hkp⟩ := mem_placeholder_shape hinv1 htt2 hmem2
        rw [hjp, hkp]
        exact mkPlaceholder_pfx_ne (pfxOf_no_underscore htt) (pfxOf_no_underscore htt2)
          (pfxOf_ne htt htt2 (fun he => het he.symm))
    | none =>
      rw [get_or_assign_miss htt2 hl2] at h2
      simp only [Except.ok.injEq, Prod.mk.injEq] at h2
      obtain ⟨j, hj1, hj2, hjp⟩ := mem_placeholder_shape hinv1 htt hmem1
      by_cases het : tt2 = tt
      · subst het
        rw [hjp, ← h2.1]
        intro he
        have := mkPlaceholder_inj_num he
        omega
      · rw [hjp, ← h2.1]
        exact mkPlaceholder_pfx_ne (pfxOf_no_underscore htt) (pfxOf_no_underscore htt2)
          (pfxOf_ne htt htt2 (fun he => het he.symm))

/-- Witness for C2: concrete calls from the fresh state. -/
theorem placeholder_stability_witness :
    ("identifier_1" : String) = "identifier_1" ∧ ("identifier_1" : String) ≠ "identifier_2" := by
  have h := placeholder_stability emptyState Reachable.empty TokenType.IDENTIFIER (by decide)
  refine ⟨?_, ?_⟩
  · exact h.1 "a" "identifier_1" "identifier_1" _ _ rfl rfl
  · exact h.2 TokenType.IDENTIFIER (by decide) "a" "b" "identifier_1" "identifier_2" _ _
      (by decide) rfl rfl

/-! ## C7: categories outside the anonymizable set pass through -/

/-- Tokens of non-anonymizable categories come out of the anonymization
loop untouched, at their position. -/
theorem anonymizeTokens_kept :
    ∀ (ts : List Token) (st us st'), anonymizeTokens st ts = .ok (us, st') →
      ∀ i, (hi : i < ts.length) → ts[i].type ∉ TYPE_PREFIXES → us[i]? = some ts[i] := by
  intro ts
  induction ts with
  | nil => intro st us st' h i hi; simp at hi
  | cons t ts ih =>
    intro st us st' h i hi hnp
    unfold anonymizeTokens at h
    split at h
    · next htp =>
      cases hga : get_or_assign st t.value t.type with
      | error e => rw [hga] at h; exact absurd h (by simp)
      | ok pr =>
        obtain ⟨v, st1⟩ := pr
        rw [hga] at h
        simp only at h
        cases han : anonymizeTokens st1 ts with
        | error e => rw [han] at h; exact absurd h (by simp)
        | ok pr2 =>
          obtain ⟨us2, st2⟩ := pr2
          rw [han] at h
          simp only [Except.ok.injEq, Prod.mk.injEq] at h
          cases i with
          | zero => exact absurd htp (by simpa using hnp)
          | succ j =>
            rw [← h.1]
            simp only [List.getElem?_cons_succ]
            exact ih st1 us2 st2 han j (by simpa using hi) (by simpa using hnp)
    · cases han : anonymizeTokens st ts with
      | error e => rw [han] at h; exact absurd h (by simp)
      | ok pr2 =>
        obtain ⟨us2, st2⟩ := pr2
        rw [han] at h
        simp only [Except.ok.injEq, Prod.mk.injEq] at h
        cases i with
        | zero => rw [← h.1]; simp
        | succ j =>
          rw [← h.1]
          simp only [List.getElem?_cons_succ]
          exact ih st us2 st2 han j (by simpa using hi) (by simpa using hnp)

/-- C7: anonymization leaves every keyword, function, symbol and
table-alias token byte-identical at its position in the output stream,
and the mapping engine returns a TableAlias value unchanged without
minting a placeholder. -/
theorem category_preservation (st : MappingState) (q : String) (us : List Token)
    (st' : MappingState) (h : anonymizeTokens st (tokenize_sql q) = .ok (us, st'))
    (i : Nat) (hi : i < (tokenize_sql q).length)
    (ht : (tokenize_sql q)[i].type = TokenType.KEYWORD ∨
      (tokenize_sql q)[i].type = TokenType.FUNCTION ∨
      (tokenize_sql q)[i].type = TokenType.SYMBOL ∨
      (tokenize_sql q)[i].type = TokenType.TABLE_ALIAS) :
    us[i]? = some ((tokenize_sql q)[i]) ∧
      (∀ (st2 : MappingState) (v : String),
        get_or_assign st2 v TokenType.TABLE_ALIAS = .ok (v, st2)) := by
  constructor
  · refine anonymizeTokens_kept _ _ _ _ h i hi ?_
    rcases ht with ht | ht | ht | ht <;> rw [ht] <;> decide
  · intro st2 v
    simp [get_or_assign]

/-- Witness for C7: the SELECT keyword and the declared alias `c` of a
concrete query come through anonymization unchanged. -/
theorem category_preservation_witness :
    ((anonymizeTokens emptyState (tokenize_sql "SELECT a FROM t c")).map
        (fun p => p.1[4]?)) = .ok (some (Token.mk TokenType.TABLE_ALIAS "c" false)) := by
  have happ :
      anonymizeTokens emptyState (tokenize_sql "SELECT a FROM t c") =
        .ok ([Token.mk TokenType.KEYWORD "SELECT" false,
          Token.mk TokenType.IDENTIFIER "identifier_1" false,
          Token.mk TokenType.KEYWORD "FROM" false,
          Token.mk TokenType.TABLE "table_1" false,
          Token.mk TokenType.TABLE_ALIAS "c" false],
         MappingState.mk [("t", "table_1")] [("a", "identifier_1")] []
           [("table_1", "t")] [("identifier_1", "a")] [] 1 1 0) := by rfl
  have h4 := category_preservation emptyState "SELECT a FROM t c" _ _ happ 4
    (by decide) (by right; right; right; decide)
  rw [happ]
  simp only [Except.map]
  rw [h4.1]
  rfl

/-! ## C9, amended part: character-level case facts -/

theorem toNat_ofNat_valid {n : Nat} (h : n < 55296) : (Char.ofNat n).toNat = n := by
  unfold Char.ofNat
  rw [dif_pos (Or.inl (by exact_mod_cast h))]
  rfl

theorem lowerChar_eq (c : Char) :
    lowerChar c = if 65 ≤ c.toNat ∧ c.toNat ≤ 90 then Char.ofNat (c.toNat + 32) else c := rfl

theorem upperChar_eq (c : Char) :
    upperChar c = if 97 ≤ c.toNat ∧ c.toNat ≤ 122 then Char.ofNat (c.toNat - 32) else c := rfl

/-- `lowerChar` fixes exactly the characters outside the upper-case ASCII
range. -/
theorem lowerChar_fixed_iff {c : Char} :
    lowerChar c = c ↔ ¬(65 ≤ c.toNat ∧ c.toNat ≤ 90) := by
  rw [lowerChar_eq]
  constructor
  · intro h hin
    rw [if_pos hin] at h
    have := congrArg Char.toNat h
    rw [toNat_ofNat_valid (by omega)] at this
    omega
  · intro h
    rw [if_neg h]

theorem lowerChar_toNat_not_upper (c : Char) :
    ¬(65 ≤ (lowerChar c).toNat ∧ (lowerChar c).toNat ≤ 90) := by
  rw [lowerChar_eq]
  split
  · next h =>
    rw [toNat_ofNat_valid (by omega)]
    omega
  · next h => exact h

theorem lowerChar_idem (c : Char) : lowerChar (lowerChar c) = lowerChar c :=
  lowerChar_fixed_iff.mpr (lowerChar_toNat_not_upper c)

/-- Upper-casing a lower-fixed character and lower-casing the result
gives the character back. -/
theorem lower_upper_fixed {c : Char} (h : lowerChar c = c) :
    lowerChar (upperChar c) = c := by
  rw [upperChar_eq]
  split
  · next hin =>
    have htn : (Char.ofNat (c.toNat - 32)).toNat = c.toNat - 32 :=
      toNat_ofNat_valid (by omega)
    rw [lowerChar_eq, htn, if_pos (by omega)]
    have h32 : c.toNat - 32 + 32 = c.toNat := by omega
    rw [h32, Char.ofNat_toNat]
  · exact h

/-- A character outside both ASCII letter ranges (such as a quote) is
hit by `lowerChar` only from itself. -/
theorem lowerChar_eq_iff {c q : Char}
    (hq1 : ¬(65 ≤ q.toNat ∧ q.toNat ≤ 90)) (hq2 : ¬(97 ≤ q.toNat ∧ q.toNat ≤ 122)) :
    lowerChar c = q ↔ c = q := by
  rw [lowerChar_eq]
  constructor
  · intro h
    split at h
    · next hin =>
      have := congrArg Char.toNat h
      rw [toNat_ofNat_valid (by omega)] at this
      exact absurd ⟨by omega, by omega⟩ hq2
    · exact h
  · intro h
    subst h
    rw [if_neg hq1]

/-- A character outside both ASCII letter ranges is hit by `upperChar`
only from itself. -/
theorem upperChar_eq_iff {c q : Char}
    (hq1 : ¬(65 ≤ q.toNat ∧ q.toNat ≤ 90)) (hq2 : ¬(97 ≤ q.toNat ∧ q.toNat ≤ 122)) :
    upperChar c = q ↔ c = q := by
  rw [upperChar_eq]
  constructor
  · intro h
    split at h
    · next hin =>
      have := congrArg Char.toNat h
      rw [toNat_ofNat_valid (by omega)] at this
      exact absurd ⟨by omega, by omega⟩ hq1
    · exact h
  · intro h
    subst h
    rw [if_neg hq2]

/-! ## C9, amended part: the casing steps are idempotent on quote-free
input -/

/-- Inputs with no quote characters. -/
def QuoteFree (l : List Char) : Prop := ∀ c ∈ l, c ≠ '"' ∧ c ≠ '\''

theorem normCaseAux_nil (fuel : Nat) (prev : Option Char) :
    normCaseAux fuel prev [] = [] := by
  cases fuel <;> rfl

/-- On quote-free input the whole of `normalize_casing` is one
lower-cased run. -/
theorem normCaseAux_qf {cs : List Char} (h : QuoteFree cs) (fuel : Nat)
    (prev : Option Char) (hf : cs.length ≤ fuel) :
    normCaseAux fuel prev cs = lowerStr cs := by
  cases fuel with
  | zero =>
    rw [Nat.le_zero, List.length_eq_zero] at hf
    subst hf
    rfl
  | succ f =>
    cases cs with
    | nil => rfl
    | cons c cs' =>
      have hc := h c (List.mem_cons_self _ _)
      have hall : ∀ d ∈ c :: cs', (fun d => !(d == '"' || d == '\'')) d = true := by
        intro d hd
        have := h d hd
        simp [this.1, this.2]
      unfold normCaseAux
      rw [if_neg hc.1, if_neg hc.2, List.span_eq_take_drop,
        List.dropWhile_eq_nil_iff.mpr hall]
      have htake : List.takeWhile (fun d => !(d == '"' || d == '\'')) (c :: cs') =
          c :: cs' := by
        have := List.takeWhile_append_dropWhile (fun d => !(d == '"' || d == '\''))
          (c :: cs')
        rwa [List.dropWhile_eq_nil_iff.mpr hall, List.append_nil] at this
      simp only [htake]
      rw [normCaseAux_nil, List.append_nil]

theorem lowerStr_qf {cs : List Char} (h : QuoteFree cs) : QuoteFree (lowerStr cs) := by
  intro c hc
  obtain ⟨d, hd, hdc⟩ := List.mem_map.mp hc
  have := h d hd
  subst hdc
  constructor
  · intro he
    exact (this.1) ((lowerChar_eq_iff (by decide) (by decide)).mp he)
  · intro he
    exact (this.2) ((lowerChar_eq_iff (by decide) (by decide)).mp he)

theorem upperStr_qf {cs : List Char} (h : QuoteFree cs) : QuoteFree (upperStr cs) := by
  intro c hc
  obtain ⟨d, hd, hdc⟩ := List.mem_map.mp hc
  have := h d hd
  subst hdc
  constructor
  · intro he
    exact (this.1) ((upperChar_eq_iff (by decide) (by decide)).mp he)
  · intro he
    exact (this.2) ((upperChar_eq_iff (by decide) (by decide)).mp he)

/-- Unfolding equations for the keyword-casing scan. -/
theorem nkcAux_cons_true (f : Nat) (x : Char) (xs : List Char) :
    nkcAux (f + 1) true (x :: xs) = x :: nkcAux f (isWordChar x) xs := by
  conv_lhs => unfold nkcAux
  rw [if_pos rfl]

theorem nkcAux_cons_false_none (f : Nat) (x : Char) (xs : List Char)
    (h : matchAlt keywordFunctionVocab (x :: xs) = none) :
    nkcAux (f + 1) false (x :: xs) = x :: nkcAux f (isWordChar x) xs := by
  conv_lhs => unfold nkcAux
  rw [if_neg (by simp), h]

theorem nkcAux_cons_false_some (f : Nat) (x : Char) (xs m r : List Char)
    (h : matchAlt keywordFunctionVocab (x :: xs) = some (m, r)) :
    nkcAux (f + 1) false (x :: xs) = upperStr m ++ nkcAux f true r := by
  conv_lhs => unfold nkcAux
  rw [if_neg (by simp), h]

/-- `splitWsAux` produces nonempty, whitespace-free words drawn from the
input (or the seed accumulator). -/
theorem splitWsAux_spec :
    ∀ (cs acc : List Char), (∀ c ∈ acc, isSpaceChar c = false) →
      ∀ w ∈ splitWsAux cs acc,
        w ≠ [] ∧ ∀ c ∈ w, isSpaceChar c = false ∧ (c ∈ cs ∨ c ∈ acc) := by
  intro cs
  induction cs with
  | nil =>
    intro acc hacc w hw
    simp only [splitWsAux] at hw
    split at hw
    · simp at hw
    · next hne =>
      simp only [List.mem_singleton] at hw
      subst hw
      refine ⟨by simpa using hne, ?_⟩
      intro c hc
      rw [List.mem_reverse] at hc
      exact ⟨hacc c hc, Or.inr hc⟩
  | cons c cs' ih =>
    intro acc hacc w hw
    simp only [splitWsAux] at hw
    split at hw
    · next hsp =>
      split at hw
      · obtain ⟨hne, hrest⟩ := ih [] (by simp) w hw
        refine ⟨hne, ?_⟩
        intro d hd
        obtain ⟨h1, h2⟩ := hrest d hd
        refine ⟨h1, ?_⟩
        rcases h2 with h2 | h2
        · exact Or.inl (List.mem_cons_of_mem _ h2)
        · simp at h2
      · rcases List.mem_cons.mp hw with hw | hw
        · subst hw
          next hne =>
          refine ⟨by simpa using hne, ?_⟩
          intro d hd
          rw [List.mem_reverse] at hd
          exact ⟨hacc d hd, Or.inr hd⟩
        · obtain ⟨hne, hrest⟩ := ih [] (by simp) w hw
          refine ⟨hne, ?_⟩
          intro d hd
          obtain ⟨h1, h2⟩ := hrest d hd
          refine ⟨h1, ?_⟩
          rcases h2 with h2 | h2
          · exact Or.inl (List.mem_cons_of_mem _ h2)
          · simp at h2
    · next hsp =>
      have haccc : ∀ d ∈ c :: acc, isSpaceChar d = false := by
        intro d hd
        rcases List.mem_cons.mp hd with hd | hd
        · subst hd
          cases hdc : isSpaceChar d
          · rfl
          · exact absurd hdc (by simpa using hsp)
        · exact hacc d hd
      obtain ⟨hne, hrest⟩ := ih (c :: acc) haccc w hw
      refine ⟨hne, ?_⟩
      intro d hd
      obtain ⟨h1, h2⟩ := hrest d hd
      refine ⟨h1, ?_⟩
      rcases h2 with h2 | h2
      · exact Or.inl (List.mem_cons_of_mem _ h2)
      · rcases List.mem_cons.mp h2 with h2 | h2
        · subst h2
          exact Or.inl (List.mem_cons_self _ _)
        · exact Or.inr h2

/-- Scanning a whitespace-free word accumulates it entirely. -/
theorem splitWsAux_word :
    ∀ (w cs acc : List Char), (∀ c ∈ w, isSpaceChar c = false) →
      splitWsAux (w ++ cs) acc = splitWsAux cs (w.reverse ++ acc) := by
  intro w
  induction w with
  | nil => intro cs acc _; simp
  | cons c w' ih =>
    intro cs acc hw
    have hc : isSpaceChar c = false := hw c (List.mem_cons_self _ _)
    simp only [List.cons_append, splitWsAux, hc]
    rw [show (c :: w').reverse ++ acc = w'.reverse ++ (c :: acc) by simp]
    exact ih cs (c :: acc) (fun d hd => hw d (List.mem_cons_of_mem _ hd))

/-- Splitting the single-space rejoin of nonempty whitespace-free words
recovers the words. -/
theorem split_intercalate :
    ∀ (ws : List (List Char)),
      (∀ w ∈ ws, w ≠ [] ∧ ∀ c ∈ w, isSpaceChar c = false) →
      splitWsAux (List.intercalate [' '] ws) [] = ws := by
  intro ws
  induction ws with
  | nil => intro _; rfl
  | cons w ws' ih =>
    intro hws
    obtain ⟨hwne, hwsp⟩ := hws w (List.mem_cons_self _ _)
    cases ws' with
    | nil =>
      have h1 : List.intercalate [' '] [w] = w := by
        simp [List.intercalate, List.intersperse]
      have h2 := splitWsAux_word w [] [] hwsp
      rw [List.append_nil, List.append_nil] at h2
      rw [h1, h2]
      show (if w.reverse = [] then [] else [w.reverse.reverse]) = [w]
      rw [if_neg (by simpa using hwne), List.reverse_reverse]
    | cons v ws'' =>
      have hstep : List.intercalate [' '] (w :: v :: ws'') =
          w ++ ' ' :: List.intercalate [' '] (v :: ws'') := by
        simp [List.intercalate, List.intersperse]
      rw [hstep, splitWsAux_word w _ [] hwsp, List.append_nil]
      show (if isSpaceChar ' ' = true then _ else _) = w :: v :: ws''
      rw [if_pos (by decide), if_neg (by simpa using hwne), List.reverse_reverse]
      rw [ih (fun u hu => hws u (List.mem_cons_of_mem _ hu))]

/-- Membership in the rejoined text. -/
theorem mem_intercalate_space :
    ∀ (ws : List (List Char)) (c : Char), c ∈ List.intercalate [' '] ws →
      c = ' ' ∨ ∃ w ∈ ws, c ∈ w := by
  intro ws
  induction ws with
  | nil => intro c hc; simp [List.intercalate, List.intersperse] at hc
  | cons w ws' ih =>
    intro c hc
    cases ws' with
    | nil =>
      rw [show List.intercalate [' '] [w] = w by simp [List.intercalate, List.intersperse]] at hc
      exact Or.inr ⟨w, List.mem_cons_self _ _, hc⟩
    | cons v ws'' =>
      rw [show List.intercalate [' '] (w :: v :: ws'') =
          w ++ ' ' :: List.intercalate [' '] (v :: ws'') by
        simp [List.intercalate, List.intersperse]] at hc
      rcases List.mem_append.mp hc with hc | hc
      · exact Or.inr ⟨w, List.mem_cons_self _ _, hc⟩
      · rcases List.mem_cons.mp hc with hc | hc
        · exact Or.inl hc
        · rcases ih c hc with hc | ⟨u, hu, hcu⟩
          · exact Or.inl hc
          · exact Or.inr ⟨u, List.mem_cons_of_mem _ hu, hcu⟩

theorem collapse_qf {cs : List Char} (h : QuoteFree cs) :
    QuoteFree (List.intercalate [' '] (splitWsAux cs [])) := by
  intro c hc
  rcases mem_intercalate_space _ c hc with hc | ⟨w, hw, hcw⟩
  · subst hc
    exact ⟨by decide, by decide⟩
  · obtain ⟨-, hrest⟩ := splitWsAux_spec cs [] (by simp) w hw
    rcases (hrest c hcw).2 with h2 | h2
    · exact h c h2
    · simp at h2

/-- Everything the keyword-casing scan emits is a copy or an upper-cased
vocabulary slice of its input. -/
theorem nkcAux_qf :
    ∀ (fuel : Nat) (b : Bool) (z : List Char), QuoteFree z →
      QuoteFree (nkcAux fuel b z) := by
  intro fuel
  induction fuel with
  | zero => intro b z _ c hc; simp [nkcAux] at hc
  | succ f ih =>
    intro b z hz c hc
    cases z with
    | nil => simp [nkcAux] at hc
    | cons x xs =>
      have hxs : QuoteFree xs := fun d hd => hz d (List.mem_cons_of_mem _ hd)
      cases b with
      | true =>
        rw [nkcAux_cons_true] at hc
        rcases List.mem_cons.mp hc with hc | hc
        · subst hc
          exact hz _ (List.mem_cons_self _ _)
        · exact ih _ xs hxs c hc
      | false =>
        cases hma : matchAlt keywordFunctionVocab (x :: xs) with
        | none =>
          rw [nkcAux_cons_false_none f x xs hma] at hc
          rcases List.mem_cons.mp hc with hc | hc
          · subst hc
            exact hz _ (List.mem_cons_self _ _)
          · exact ih _ xs hxs c hc
        | some pr =>
          obtain ⟨m, r⟩ := pr
          rw [nkcAux_cons_false_some f x xs m r hma] at hc
          obtain ⟨hmr, -⟩ := matchAlt_spec hma
          have hmq : QuoteFree m := by
            intro d hd
            exact hz d (hmr ▸ List.mem_append_left _ hd)
          have hrq : QuoteFree r := by
            intro d hd
            exact hz d (hmr ▸ List.mem_append_right _ hd)
          rcases List.mem_append.mp hc with hc | hc
          · exact upperStr_qf hmq c hc
          · exact ih _ r hrq c hc

theorem vocab_entry_pos : ∀ w ∈ keywordFunctionVocab, 0 < w.data.length := by
  decide

theorem lowerStr_fixed_mem {l : List Char} (h : lowerStr l = l) {c : Char}
    (hc : c ∈ l) : lowerChar c = c := by
  induction l with
  | nil => simp at hc
  | cons x xs ih =>
    rw [lowerStr, List.map_cons] at h
    simp only [List.cons.injEq] at h
    rcases List.mem_cons.mp hc with hc | hc
    · subst hc
      exact h.1
    · exact ih h.2 hc

/-- Lower-casing the output of the keyword-casing scan recovers its
input, whenever the input was already lower-case. -/
theorem lowerStr_nkcAux :
    ∀ (fuel : Nat) (b : Bool) (z : List Char), lowerStr z = z → z.length ≤ fuel →
      lowerStr (nkcAux fuel b z) = z := by
  intro fuel
  induction fuel with
  | zero =>
    intro b z _ hf
    rw [Nat.le_zero, List.length_eq_zero] at hf
    subst hf
    rfl
  | succ f ih =>
    intro b z hz hf
    cases z with
    | nil => rfl
    | cons x xs =>
      have hcons := hz
      rw [lowerStr, List.map_cons] at hcons
      simp only [List.cons.injEq] at hcons
      obtain ⟨hx, hxs⟩ := hcons
      have hxf : xs.length ≤ f := by
        simp only [List.length_cons] at hf
        omega
      cases b with
      | true =>
        rw [nkcAux_cons_true, lowerStr, List.map_cons, hx]
        rw [show List.map lowerChar (nkcAux f (isWordChar x) xs) =
            lowerStr (nkcAux f (isWordChar x) xs) from rfl]
        rw [ih _ xs hxs hxf]
      | false =>
        cases hma : matchAlt keywordFunctionVocab (x :: xs) with
        | none =>
          rw [nkcAux_cons_false_none f x xs hma, lowerStr, List.map_cons, hx]
          rw [show List.map lowerChar (nkcAux f (isWordChar x) xs) =
              lowerStr (nkcAux f (isWordChar x) xs) from rfl]
          rw [ih _ xs hxs hxf]
        | some pr =>
          obtain ⟨m, r⟩ := pr
          obtain ⟨hmr, w, hw, hlen⟩ := matchAlt_spec hma
          have hm1 : 1 ≤ m.length := by
            have := vocab_entry_pos w hw
            omega
          have hzm : lowerStr m = m := by
            have hz2 : lowerStr (m ++ r) = m ++ r := hmr ▸ hz
            rw [lowerStr, List.map_append] at hz2
            have hml : (List.map lowerChar m).length = m.length := by simp
            exact List.append_inj_left hz2 hml
          have hzr : lowerStr r = r := by
            have hz2 : lowerStr (m ++ r) = m ++ r := hmr ▸ hz
            rw [lowerStr, List.map_append] at hz2
            have hml : (List.map lowerChar m).length = m.length := by simp
            exact List.append_inj_right hz2 hml
          have hrf : r.length ≤ f := by
            have hle := congrArg List.length hmr
            simp only [List.length_cons, List.length_append] at hle
            simp only [List.length_cons] at hf
            omega
          rw [nkcAux_cons_false_some f x xs m r hma, lowerStr, List.map_append]
          have hup : List.map lowerChar (upperStr m) = m := by
            rw [upperStr, List.map_map]
            have hcw : ∀ d ∈ m, (lowerChar ∘ upperChar) d = id d := by
              intro d hd
              simp only [Function.comp_apply, id_eq]
              exact lower_upper_fixed (lowerStr_fixed_mem hzm hd)
            rw [List.map_eq_map_iff.mpr hcw, List.map_id]
          rw [hup]
          rw [show List.map lowerChar (nkcAux f true r) =
              lowerStr (nkcAux f true r) from rfl]
          rw [ih _ r hzr hrf]
          exact hmr.symm

/-- C9 (amended): on quote-free input the three-step casing normalizer
(lower-casing, whitespace collapsing, keyword upper-casing) is
idempotent; the failure of idempotence is confined to quote handling.
-/
theorem c9_amended (x : String) (hq : QuoteFree x.data) :
    normalize_keyword_casing (collapse_extra_spaces (normalize_casing
      (normalize_keyword_casing (collapse_extra_spaces (normalize_casing x))))) =
    normalize_keyword_casing (collapse_extra_spaces (normalize_casing x)) := by
  obtain ⟨xl⟩ := x
  have hqx : QuoteFree xl := hq
  have h1 : normalize_casing (String.mk xl) = String.mk (lowerStr xl) := by
    show String.mk (normCaseAux (xl.length + 1) none xl) = String.mk (lowerStr xl)
    rw [normCaseAux_qf hqx (xl.length + 1) none (Nat.le_succ _)]
  rw [h1]
  have hwsp : ∀ w ∈ splitWsAux (lowerStr xl) [],
      w ≠ [] ∧ ∀ c ∈ w, isSpaceChar c = false := by
    intro w hw
    obtain ⟨hne, hrest⟩ := splitWsAux_spec (lowerStr xl) [] (by simp) w hw
    exact ⟨hne, fun c hc => (hrest c hc).1⟩
  have hwmem : ∀ w ∈ splitWsAux (lowerStr xl) [], ∀ c ∈ w, c ∈ lowerStr xl := by
    intro w hw c hc
    obtain ⟨-, hrest⟩ := splitWsAux_spec (lowerStr xl) [] (by simp) w hw
    rcases (hrest c hc).2 with h | h
    · exact h
    · simp at h
  set zl := List.intercalate [' '] (splitWsAux (lowerStr xl) []) with hzl
  have h2 : collapse_extra_spaces (String.mk (lowerStr xl)) = String.mk zl := rfl
  rw [h2]
  have h3 : normalize_keyword_casing (String.mk zl) =
      String.mk (nkcAux (zl.length + 1) false zl) := rfl
  rw [h3]
  have hqzl : QuoteFree zl := by
    rw [hzl]
    exact collapse_qf (lowerStr_qf hqx)
  have hlowzl : lowerStr zl = zl := by
    have hall : ∀ d ∈ zl, lowerChar d = id d := by
      intro d hd
      rw [hzl] at hd
      rcases mem_intercalate_space _ d hd with hd' | ⟨w, hw, hdw⟩
      · subst hd'
        rfl
      · obtain ⟨e, -, hde⟩ := List.mem_map.mp (hwmem w hw d hdw)
        rw [← hde]
        exact lowerChar_idem e
    rw [lowerStr, List.map_eq_map_iff.mpr hall, List.map_id]
  have hKq : QuoteFree (nkcAux (zl.length + 1) false zl) := nkcAux_qf _ _ _ hqzl
  have hKlow : lowerStr (nkcAux (zl.length + 1) false zl) = zl :=
    lowerStr_nkcAux _ _ _ hlowzl (Nat.le_succ _)
  have h4 : normalize_casing (String.mk (nkcAux (zl.length + 1) false zl)) =
      String.mk zl := by
    show String.mk (normCaseAux ((nkcAux (zl.length + 1) false zl).length + 1) none
      (nkcAux (zl.length + 1) false zl)) = String.mk zl
    rw [normCaseAux_qf hKq _ none (Nat.le_succ _), hKlow]
  rw [h4]
  have h5 : collapse_extra_spaces (String.mk zl) = String.mk zl := by
    show String.mk (List.intercalate [' '] (splitWsAux zl [])) = String.mk zl
    rw [hzl, split_intercalate _ hwsp]
  rw [h5]
  exact h3

/-- Witness for the amended C9 at a concrete quote-free input. -/
theorem c9_amended_witness :
    QuoteFree ("select  a".data) ∧
    normalize_keyword_casing (collapse_extra_spaces (normalize_casing
      (normalize_keyword_casing (collapse_extra_spaces
        (normalize_casing "select  a"))))) =
    normalize_keyword_casing (collapse_extra_spaces
      (normalize_casing "select  a")) :=
  ⟨by unfold QuoteFree; decide, c9_amended "select  a" (by unfold QuoteFree; decide)⟩

/-! ## C1: the round trip through anonymize and de-anonymize -/

theorem alookup_of_mem_nodup {k v : String} :
    ∀ {l : List (String × String)}, (k, v) ∈ l → (l.map Prod.fst).Nodup →
      alookup k l = some v := by
  intro l
  induction l with
  | nil => intro h _; simp at h
  | cons kv rest ih =>
    intro hm hnd
    obtain ⟨a, b⟩ := kv
    rw [List.map_cons, List.nodup_cons] at hnd
    rcases List.mem_cons.mp hm with hm1 | hm2
    · simp only [Prod.mk.injEq] at hm1
      obtain ⟨h1, h2⟩ := hm1
      subst h1
      subst h2
      simp [alookup]
    · have hka : k ≠ a := by
        intro he
        subst he
        exact hnd.1 (List.mem_map.mpr ⟨(k, v), hm2, rfl⟩)
      simp only [alookup]
      rw [if_neg hka]
      exact ih hm2 hnd.2

theorem alookup_none_of_not_mem {k : String} :
    ∀ {l : List (String × String)}, k ∉ l.map Prod.fst → alookup k l = none := by
  intro l
  induction l with
  | nil => intro _; rfl
  | cons kv rest ih =>
    intro h
    obtain ⟨a, b⟩ := kv
    simp only [List.map_cons, List.mem_cons, not_or] at h
    simp only [alookup]
    rw [if_neg h.1]
    exact ih h.2

/-- Under the invariant the placeholders of one category are pairwise
distinct. -/
theorem placeholders_nodup {st : MappingState} {tt : TokenType} (hinv : Inv st)
    (htt : tt ∈ TYPE_PREFIXES) : ((st.mappings tt).map Prod.snd).Nodup := by
  obtain ⟨hsnd, -, -⟩ := hinv tt htt
  rw [hsnd]
  have hrnd : (List.range' 1 (st.counters tt)).Nodup :=
    List.nodup_range' 1 (st.counters tt) 1 (by omega)
  exact hrnd.map_on (fun a _ b _ hab => mkPlaceholder_inj_num hab)

/-- The reverse map's keys are the forward map's placeholders. -/
theorem rev_keys_eq {st : MappingState} {tt : TokenType} (hinv : Inv st)
    (htt : tt ∈ TYPE_PREFIXES) :
    (st.reverse_mappings tt).map Prod.fst = (st.mappings tt).map Prod.snd := by
  obtain ⟨-, -, hrev⟩ := hinv tt htt
  rw [hrev, List.map_map]
  rfl

/-- Every key of a reverse map is a minted placeholder of its category. -/
theorem rev_key_shape {st : MappingState} {tt : TokenType} {q : String}
    (hinv : Inv st) (htt : tt ∈ TYPE_PREFIXES)
    (hq : q ∈ (st.reverse_mappings tt).map Prod.fst) :
    ∃ j, 1 ≤ j ∧ j ≤ st.counters tt ∧ q = mkPlaceholder (pfxOf tt) j := by
  rw [rev_keys_eq hinv htt] at hq
  obtain ⟨kv, hkv, hq2⟩ := List.mem_map.mp hq
  obtain ⟨v, p⟩ := kv
  simp only at hq2
  subst hq2
  exact mem_placeholder_shape hinv htt hkv

/-- Head segment before the first underscore of a placeholder-shaped
string. -/
theorem takeWhile_underscore :
    ∀ (l1 t : List Char), '_' ∉ l1 →
      List.takeWhile (fun c => !(c = '_')) (l1 ++ '_' :: t) = l1 := by
  intro l1
  induction l1 with
  | nil =>
    intro t _
    rw [List.nil_append, List.takeWhile_cons_of_neg (by simp)]
  | cons c l1' ih =>
    intro t h
    have hc : c ≠ '_' := fun he => h (he ▸ List.mem_cons_self _ _)
    rw [List.cons_append, List.takeWhile_cons_of_pos (by simp [hc]),
      ih t (fun hm => h (List.mem_cons_of_mem _ hm))]

/-- The reverse probe finds the original of every stored placeholder,
in its own category. -/
theorem reverseLookup_mem {st : MappingState} {tt : TokenType} {v p : String}
    (hinv : Inv st) (htt : tt ∈ TYPE_PREFIXES) (hm : (v, p) ∈ st.mappings tt) :
    reverseLookup st p = some (tt, v) := by
  obtain ⟨j, hj1, hj2, hjp⟩ := mem_placeholder_shape hinv htt hm
  have hnone : ∀ tt' ∈ TYPE_PREFIXES, tt' ≠ tt →
      alookup p (st.reverse_mappings tt') = none := by
    intro tt' htt' hne
    apply alookup_none_of_not_mem
    intro hq
    obtain ⟨k, -, -, hkp⟩ := rev_key_shape hinv htt' hq
    rw [hjp] at hkp
    exact mkPlaceholder_pfx_ne (pfxOf_no_underscore htt) (pfxOf_no_underscore htt')
      (pfxOf_ne htt htt' (fun he => hne he.symm)) hkp
  have hsome : alookup p (st.reverse_mappings tt) = some v := by
    obtain ⟨-, -, hrev⟩ := hinv tt htt
    apply alookup_of_mem_nodup
    · rw [hrev]
      exact List.mem_map.mpr ⟨(v, p), hm, rfl⟩
    · rw [rev_keys_eq hinv htt]
      exact placeholders_nodup hinv htt
  fin_cases htt
  · have h1 : alookup p st.revTable = some v := hsome
    unfold reverseLookup
    rw [h1]
  · have h0 : alookup p st.revTable = none := hnone .TABLE (by decide) (by decide)
    have h1 : alookup p st.revIdent = some v := hsome
    unfold reverseLookup
    rw [h0, h1]
  · have h0 : alookup p st.revTable = none := hnone .TABLE (by decide) (by decide)
    have h0i : alookup p st.revIdent = none := hnone .IDENTIFIER (by decide) (by decide)
    have h1 : alookup p st.revLit = some v := hsome
    unfold reverseLookup
    rw [h0, h0i, h1]

/-- The reverse probe misses everything that is not placeholder-shaped. -/
theorem reverseLookup_none {st : MappingState} {w : String} (hinv : Inv st)
    (hw : ∀ tt ∈ TYPE_PREFIXES, ∀ n, w ≠ mkPlaceholder (pfxOf tt) n) :
    reverseLookup st w = none := by
  have hkeys : ∀ tt ∈ TYPE_PREFIXES, alookup w (st.reverse_mappings tt) = none := by
    intro tt htt
    apply alookup_none_of_not_mem
    intro hq
    obtain ⟨k, -, -, hkp⟩ := rev_key_shape hinv htt hq
    exact hw tt htt k hkp
  have h1 : alookup w st.revTable = none := hkeys .TABLE (by decide)
  have h2 : alookup w st.revIdent = none := hkeys .IDENTIFIER (by decide)
  have h3 : alookup w st.revLit = none := hkeys .LITERAL (by decide)
  unfold reverseLookup
  rw [h1, h2, h3]

/-- One get-or-assign call never removes a stored pair. -/
theorem get_or_assign_mono {st st1 : MappingState} {v p : String} {tt : TokenType}
    (htt : tt ∈ TYPE_PREFIXES) (h : get_or_assign st v tt = .ok (p, st1)) :
    ∀ tt' ∈ TYPE_PREFIXES, ∀ kv ∈ st.mappings tt', kv ∈ st1.mappings tt' := by
  intro tt' htt' kv hkv
  cases hl : alookup v (st.mappings tt) with
  | some p0 =>
    rw [get_or_assign_hit htt hl] at h
    simp only [Except.ok.injEq, Prod.mk.injEq] at h
    rw [← h.2]
    exact hkv
  | none =>
    rw [get_or_assign_miss htt hl] at h
    simp only [Except.ok.injEq, Prod.mk.injEq] at h
    rw [← h.2]
    obtain ⟨hm, -, -⟩ := @insertMapping_mappings st v
      (mkPlaceholder (pfxOf tt) (st.counters tt + 1)) tt htt tt' htt'
    rw [hm]
    split
    · exact List.mem_append_left _ hkv
    · exact hkv

/-- The anonymization loop never removes a stored pair. -/
theorem anonymizeTokens_mono :
    ∀ (ts : List Token) (st us st'), anonymizeTokens st ts = .ok (us, st') →
      ∀ tt ∈ TYPE_PREFIXES, ∀ kv ∈ st.mappings tt, kv ∈ st'.mappings tt := by
  intro ts
  induction ts with
  | nil =>
    intro st us st' h tt htt kv hkv
    simp only [anonymizeTokens, Except.ok.injEq, Prod.mk.injEq] at h
    rw [← h.2]
    exact hkv
  | cons t ts ih =>
    intro st us st' h tt htt kv hkv
    unfold anonymizeTokens at h
    split at h
    · next htp =>
      cases hga : get_or_assign st t.value t.type with
      | error e => rw [hga] at h; exact absurd h (by simp)
      | ok pr =>
        obtain ⟨v, st1⟩ := pr
        rw [hga] at h
        simp only at h
        cases han : anonymizeTokens st1 ts with
        | error e => rw [han] at h; exact absurd h (by simp)
        | ok pr2 =>
          obtain ⟨us2, st2⟩ := pr2
          rw [han] at h
          simp only [Except.ok.injEq, Prod.mk.injEq] at h
          rw [← h.2]
          exact ih st1 us2 st2 han tt htt kv (get_or_assign_mono htp hga tt htt kv hkv)
    · cases han : anonymizeTokens st ts with
      | error e => rw [han] at h; exact absurd h (by simp)
      | ok pr2 =>
        obtain ⟨us2, st2⟩ := pr2
        rw [han] at h
        simp only [Except.ok.injEq, Prod.mk.injEq] at h
        rw [← h.2]
        exact ih st us2 st2 han tt htt kv hkv

/-- The token-wise content of the anonymization loop's output: an
anonymizable token's placeholder is stored against its original in the
final state; every other token comes through unchanged. -/
theorem anonymizeTokens_rel :
    ∀ (ts : List Token) (st us st'), Inv st →
      anonymizeTokens st ts = .ok (us, st') →
      List.Forall₂ (fun t u =>
        (t.type ∈ TYPE_PREFIXES ∧ (t.value, u.value) ∈ st'.mappings t.type) ∨
        (t.type ∉ TYPE_PREFIXES ∧ u = t)) ts us := by
  intro ts
  induction ts with
  | nil =>
    intro st us st' _ h
    simp only [anonymizeTokens, Except.ok.injEq, Prod.mk.injEq] at h
    rw [← h.1]
    exact List.Forall₂.nil
  | cons t ts ih =>
    intro st us st' hinv h
    unfold anonymizeTokens at h
    split at h
    · next htp =>
      cases hga : get_or_assign st t.value t.type with
      | error e => rw [hga] at h; exact absurd h (by simp)
      | ok pr =>
        obtain ⟨v, st1⟩ := pr
        rw [hga] at h
        simp only at h
        cases han : anonymizeTokens st1 ts with
        | error e => rw [han] at h; exact absurd h (by simp)
        | ok pr2 =>
          obtain ⟨us2, st2⟩ := pr2
          rw [han] at h
          simp only [Except.ok.injEq, Prod.mk.injEq] at h
          rw [← h.1, ← h.2]
          refine List.Forall₂.cons (Or.inl ⟨htp, ?_⟩)
            (ih st1 us2 st2 (get_or_assign_inv hinv htp hga) han)
          exact anonymizeTokens_mono ts st1 us2 st2 han t.type htp _
            (get_or_assign_mem hinv htp hga)
    · next htp =>
      cases han : anonymizeTokens st ts with
      | error e => rw [han] at h; exact absurd h (by simp)
      | ok pr2 =>
        obtain ⟨us2, st2⟩ := pr2
        rw [han] at h
        simp only [Except.ok.injEq, Prod.mk.injEq] at h
        rw [← h.1, ← h.2]
        exact List.Forall₂.cons (Or.inr ⟨htp, rfl⟩) (ih st us2 st2 hinv han)

/-- The de-anonymization loop maps each token value through the reverse
probe. -/
theorem deAnonTokens_values (st : MappingState) :
    ∀ (l : List Token), (deAnonTokens st l).1.map Token.value =
      l.map fun t => match reverseLookup st t.value with
        | some pr => pr.2
        | none => t.value := by
  intro l
  induction l with
  | nil => rfl
  | cons t ts ih =>
    show ((match reverseLookup st t.value with
      | some (tt, orig) => Token.mk tt orig t.space
      | none => t) :: (deAnonTokens st ts).1).map Token.value = _
    rw [List.map_cons, List.map_cons, ih]
    congr 1
    cases reverseLookup st t.value with
    | none => rfl
    | some pr =>
      obtain ⟨tt, orig⟩ := pr
      rfl

/-- Mapping the reverse probe over the anonymized values undoes the
anonymization, token-wise: stored placeholders return to their
originals, anything else (not placeholder-shaped by hypothesis) stays. -/
theorem revprobe_map_values (stf : MappingState) (hinvf : Inv stf) :
    ∀ (ts2 us2 : List Token),
      List.Forall₂ (fun t u =>
        (t.type ∈ TYPE_PREFIXES ∧ (t.value, u.value) ∈ stf.mappings t.type) ∨
        (t.type ∉ TYPE_PREFIXES ∧ u = t)) ts2 us2 →
      (∀ t ∈ ts2, t.type ∉ TYPE_PREFIXES →
        t.value.data.takeWhile (fun c => !(c = '_')) ∉
          [("table" : String).data, ("identifier" : String).data,
            ("literal" : String).data]) →
      (us2.map Token.value).map
        (fun w => match reverseLookup stf w with
          | some pr => pr.2
          | none => w) = ts2.map Token.value := by
  intro ts2 us2 hrel2
  induction hrel2 with
  | nil => intro _; rfl
  | @cons t u ts0 us0 hr ht2 ih =>
    intro hcond
    rw [List.map_cons, List.map_cons, List.map_cons,
      ih (fun t2 ht3 => hcond t2 (List.mem_cons_of_mem _ ht3))]
    rcases hr with ⟨htp, hmem⟩ | ⟨htp, heq⟩
    · rw [reverseLookup_mem hinvf htp hmem]
    · subst heq
      have hnone : reverseLookup stf u.value = none := by
        apply reverseLookup_none hinvf
        intro tt htt n he
        have hd := congrArg String.data he
        rw [mkPlaceholder_data] at hd
        have hpfx : u.value.data.takeWhile (fun c => !(c = '_')) =
            (pfxOf tt).data := by
          rw [hd]
          exact takeWhile_underscore _ _ (pfxOf_no_underscore htt)
        apply hcond u (List.mem_cons_self _ _) htp
        rw [hpfx]
        fin_cases htt <;> simp [pfxOf]
      rw [hnone]

set_option maxHeartbeats 4000000 in
/-- C1: counterexample — the round trip is not exact for every input.
Normalizing "select a as identifier_1" gives "SELECT a AS identifier_1";
the post-processing classifies the trailing token as an identifier
alias, so it is not anonymized and stays "identifier_1" in the
anonymized text, where the reverse probe of de-anonymization then
rewrites it (like the genuine placeholder) to "a". -/
theorem c1_counterexample :
    preprocess_text "select a as identifier_1" = "SELECT a AS identifier_1" ∧
    (anonymize_query emptyState "SELECT a AS identifier_1").map
      (fun p => (de_anonymize_query p.2 p.1).1) = .ok "SELECT a AS a" ∧
    ("SELECT a AS a" : String) ≠ "SELECT a AS identifier_1" :=
  ⟨rfl, rfl, by decide⟩

/-- C1 (amended): starting from the fresh state, de-anonymizing the
anonymization of the normalized text reconstructs it exactly, provided
the normalized text re-tokenizes to tokens that join back to it, the
anonymized text re-tokenizes to the anonymized token values, and no
token outside the anonymizable categories is placeholder-shaped (its
segment before the first underscore is not a placeholder prefix). -/
theorem c1_amended (x : String) (us : List Token) (stf : MappingState)
    (hanon : anonymizeTokens emptyState (tokenize_sql (preprocess_text x)) =
      .ok (us, stf))
    (hjoin : joinValues (tokenize_sql (preprocess_text x)) = preprocess_text x)
    (hstab : (tokenize_sql (joinValues us)).map Token.value = us.map Token.value)
    (hph : ∀ t ∈ tokenize_sql (preprocess_text x), t.type ∉ TYPE_PREFIXES →
      t.value.data.takeWhile (fun c => !(c = '_')) ∉
        [("table" : String).data, ("identifier" : String).data,
          ("literal" : String).data]) :
    anonymize_query emptyState (preprocess_text x) = .ok (joinValues us, stf) ∧
    (de_anonymize_query stf (joinValues us)).1 = preprocess_text x := by
  have hinvf : Inv stf := anonymizeTokens_inv _ _ _ _ inv_empty hanon
  have hrel := anonymizeTokens_rel _ _ _ _ inv_empty hanon
  constructor
  · unfold anonymize_query
    rw [hanon]
  · show joinValues (deAnonTokens stf (tokenize_sql (joinValues us))).1 =
      preprocess_text x
    have hjv : ∀ l : List Token,
        joinValues l = String.intercalate " " (l.map Token.value) := fun l => rfl
    rw [hjv, deAnonTokens_values]
    have hcomp : (tokenize_sql (joinValues us)).map
        (fun t => match reverseLookup stf t.value with
          | some pr => pr.2
          | none => t.value) =
        ((tokenize_sql (joinValues us)).map Token.value).map
          (fun w => match reverseLookup stf w with
            | some pr => pr.2
            | none => w) := by
      rw [List.map_map]
      rfl
    rw [hcomp, hstab, revprobe_map_values stf hinvf _ _ hrel hph, ← hjv, hjoin]

set_option maxHeartbeats 4000000 in
/-- Witness for the amended C1 at a concrete query. -/
theorem c1_amended_witness :
    anonymize_query emptyState (preprocess_text "select name from users") =
      .ok (joinValues [Token.mk TokenType.KEYWORD "SELECT" false,
        Token.mk TokenType.IDENTIFIER "identifier_1" false,
        Token.mk TokenType.KEYWORD "FROM" false,
        Token.mk TokenType.TABLE "table_1" false],
        MappingState.mk [("users", "table_1")] [("name", "identifier_1")] []
          [("table_1", "users")] [("identifier_1", "name")] [] 1 1 0) ∧
    (de_anonymize_query
      (MappingState.mk [("users", "table_1")] [("name", "identifier_1")] []
        [("table_1", "users")] [("identifier_1", "name")] [] 1 1 0)
      (joinValues [Token.mk TokenType.KEYWORD "SELECT" false,
        Token.mk TokenType.IDENTIFIER "identifier_1" false,
        Token.mk TokenType.KEYWORD "FROM" false,
        Token.mk TokenType.TABLE "table_1" false])).1 =
      preprocess_text "select name from users" :=
  c1_amended "select name from users" _ _ rfl rfl rfl (by decide)

end SqlAnon
